import Mathlib

/-!
# designv1-cli: file discovery, heuristic polish, edit merging and patch synthesis

A shallow embedding of `src/cli/fs.js`, `src/cli/polish/heuristics.js`,
`src/cli/polish/openai.js` and `src/cli/improve.js`.

A JavaScript string is modelled as the list of its UTF-16 code units, so that
`length`, `[^/]`, `{60,}` and the regular-expression classes count exactly what
the engine counts (the regular expressions of the program carry no `u` flag).
-/

namespace DesignV1

/-! ## Strings -/

/-- A JavaScript string: the list of its UTF-16 code units. -/
abbrev Str := List Nat

/-- The UTF-16 code units of one Unicode scalar value. -/
def utf16 (c : Char) : List Nat :=
  if c.toNat < 65536 then [c.toNat]
  else [55296 + (c.toNat - 65536) / 1024, 56320 + (c.toNat - 65536) % 1024]

/-- The JavaScript string denoted by a literal. -/
def u16 (s : String) : Str :=
  s.toList.foldr (fun c acc => utf16 c ++ acc) []

/-- `[A-Za-z0-9_]`, the word characters of `\b`. -/
def isWordChar (c : Nat) : Bool :=
  (48 ≤ c && c ≤ 57) || (65 ≤ c && c ≤ 90) || c == 95 || (97 ≤ c && c ≤ 122)

/-- `[0-9]`. -/
def isDigit (c : Nat) : Bool := 48 ≤ c && c ≤ 57

/-- The three quote characters of the class `["'\x60]`. -/
def isQuote (c : Nat) : Bool := c == 34 || c == 39 || c == 96

/-- `\s` of ECMAScript: white space and line terminators. -/
def isSpace (c : Nat) : Bool :=
  c == 9 || c == 10 || c == 11 || c == 12 || c == 13 || c == 32 || c == 160 ||
  c == 5760 || (8192 ≤ c && c ≤ 8202) || c == 8232 || c == 8233 || c == 8239 ||
  c == 8287 || c == 12288 || c == 65279

/-- The line terminators, which `.` does not match: LF, CR, U+2028, U+2029. -/
def isLineTerminator (c : Nat) : Bool :=
  c == 10 || c == 13 || c == 8232 || c == 8233

/-- `[ \t]`. -/
def isBlank (c : Nat) : Bool := c == 32 || c == 9

/-- Whether the position next to an optional code unit holds a word character. -/
def isWordAt : Option Nat → Bool
  | some c => isWordChar c
  | none => false

/-- The assertion `\b` between the code unit before a position and the one at it. -/
def wordBoundary (prev next : Option Nat) : Bool :=
  isWordAt prev != isWordAt next

/-- Matching a literal at the head of the input: the input left after it. -/
def afterLit : Str → Str → Option Str
  | [], s => some s
  | _ :: _, [] => none
  | p :: ps, c :: cs => if c = p then afterLit ps cs else none

/-- `String.prototype.includes`. -/
def includes (needle : Str) : Str → Bool
  | [] => needle.isEmpty
  | c :: rest => (afterLit needle (c :: rest)).isSome || includes needle rest

/-- `String.prototype.startsWith`. -/
def startsWith (s pre : Str) : Bool := (afterLit pre s).isSome

/-- `String.prototype.split('\n')`. -/
def splitNL : Str → List Str
  | [] => [[]]
  | c :: rest =>
    if c = 10 then [] :: splitNL rest
    else
      match splitNL rest with
      | l :: ls => (c :: l) :: ls
      | [] => [[c]]

/-- `Array.prototype.join('\n')`. -/
def joinNL : List Str → Str
  | [] => []
  | [l] => l
  | l :: l2 :: ls => l ++ 10 :: joinNL (l2 :: ls)

/-! ## Regular-expression replacement -/

/-- One attempt of a regular expression at a position: given the code unit before
the position and the input from the position on, the length of the match and the
text that replaces it. -/
abbrev Matcher := Option Nat → Str → Option (Nat × Str)

/-- The scan of `replaceAll` with a global regular expression: `skip` counts the
code units of the current match that are still to be passed over. Every regular
expression of the program matches at least one code unit. -/
def replaceFrom (m : Matcher) : Nat → Option Nat → Str → Str
  | _, _, [] => []
  | skip + 1, _, c :: rest => replaceFrom m skip (some c) rest
  | 0, prev, c :: rest =>
    match m prev (c :: rest) with
    | some (n, rep) => rep ++ replaceFrom m (n - 1) (some c) rest
    | none => c :: replaceFrom m 0 (some c) rest

/-- `String.prototype.replaceAll(regex, replacement)`. -/
def replaceAll (m : Matcher) (s : Str) : Str := replaceFrom m 0 none s

/-- `RegExp.prototype.test` for an unanchored expression: some position matches. -/
def testFrom (p : Option Nat → Str → Bool) : Option Nat → Str → Bool
  | prev, [] => p prev []
  | prev, c :: rest => p prev (c :: rest) || testFrom p (some c) rest

/-! ## `polish/heuristics.js` -/

/-- The literal `className=`. -/
def litClassName : Str := [99, 108, 97, 115, 115, 78, 97, 109, 101, 61]

/-- The literal `-zinc-`. -/
def litZinc : Str := [45, 122, 105, 110, 99, 45]

/-- The literal `-neutral-`. -/
def litNeutral : Str := [45, 110, 101, 117, 116, 114, 97, 108, 45]

/-- The literal `text-balance`. -/
def litTextBalance : Str := [116, 101, 120, 116, 45, 98, 97, 108, 97, 110, 99, 101]

/-- The regular expression `\bP-zinc-([0-9]{3})\b` with replacement `P-neutral-$1`,
for the prefix `P` (`text`, `bg` or `border`). -/
def zincMatch (pfx : Str) : Matcher := fun prev s =>
  if wordBoundary prev s.head? then
    match afterLit (pfx ++ litZinc) s with
    | some (d1 :: d2 :: d3 :: rest) =>
      if isDigit d1 && isDigit d2 && isDigit d3 && wordBoundary (some d3) rest.head? then
        some (pfx.length + 9, pfx ++ litNeutral ++ [d1, d2, d3])
      else none
    | _ => none
  else none

/-- The three token normalizations, `text-zinc`, `bg-zinc`, `border-zinc`, in order. -/
def normalizeZinc (s : Str) : Str :=
  replaceAll (zincMatch [98, 111, 114, 100, 101, 114])
    (replaceAll (zincMatch [98, 103])
      (replaceAll (zincMatch [116, 101, 120, 116]) s))

/-- The tail `([^"'\x60]*?)\3` after the opening quote `q`: the lazy body runs to the
first quote character, which has to be `q`. Gives the body and the input after the
closing quote. -/
def lazyBody (q : Nat) : Str → Option (Str × Str)
  | [] => none
  | c :: rest =>
    if isQuote c then (if c = q then some ([], rest) else none)
    else (lazyBody q rest).map (fun p => (c :: p.1, p.2))

/-- The part `className=(["'\x60])([^"'\x60]*?)\3` tried at one position: the quote,
the class string and the input after the match. -/
def classAttr (s : Str) : Option (Nat × Str × Str) :=
  match afterLit litClassName s with
  | some (q :: body) =>
    if isQuote q then (lazyBody q body).map (fun p => (q, p.1, p.2)) else none
  | _ => none

/-- The part `([^>]*?)className=...`: the lazy attribute text grows one code unit
other than `>` at a time until the rest matches. -/
def lazyAttrs : Str → Option (Str × Nat × Str × Str)
  | [] => none
  | c :: rest =>
    match classAttr (c :: rest) with
    | some (q, cls, r) => some ([], q, cls, r)
    | none =>
      if c = 62 then none
      else (lazyAttrs rest).map (fun p => (c :: p.1, p.2))

/-- The regular expression `\btext-(2xl|3xl|4xl|5xl)\b` tried at one position. -/
def sizeTokenAt (prev : Option Nat) (s : Str) : Bool :=
  wordBoundary prev s.head? &&
  match afterLit [116, 101, 120, 116, 45] s with
  | some (a :: b :: c :: rest) =>
    (a == 50 || a == 51 || a == 52 || a == 53) && b == 120 && c == 108 &&
      wordBoundary (some c) rest.head?
  | _ => false

/-- `/\btext-(2xl|3xl|4xl|5xl)\b/.test(cls)`. -/
def hasSizeToken (cls : Str) : Bool := testFrom sizeTokenAt none cls

/-- The heading rule: `<h([1-6])([^>]*?)className=(["'\x60])([^"'\x60]*?)\3` with
its callback. -/
def headingMatch : Matcher := fun _ s =>
  match s with
  | 60 :: 104 :: level :: rest =>
    if 49 ≤ level && level ≤ 54 then
      match lazyAttrs rest with
      | some (attrs, q, cls, _) =>
        let m := [60, 104, level] ++ attrs ++ litClassName ++ [q] ++ cls ++ [q]
        if includes litTextBalance cls then some (m.length, m)
        else if !hasSizeToken cls then some (m.length, m)
        else some (m.length,
          [60, 104, level] ++ attrs ++ litClassName ++ [q] ++ cls ++ 32 :: litTextBalance ++ [q])
      | none => none
    else none
  | _ => none

/-- The greedy `\s*`. -/
def skipSpaces : Str → Str
  | [] => []
  | c :: rest => if isSpace c then skipSpaces rest else c :: rest

/-- The regular expression `\bcn\s*\(` tried at one position. -/
def cnCallAt (prev : Option Nat) (s : Str) : Bool :=
  wordBoundary prev s.head? &&
  match afterLit [99, 110] s with
  | some r => (skipSpaces r).head? == some 40
  | none => false

/-- `/\bcn\s*\(/.test(out)`. -/
def hasCnCall (s : Str) : Bool := testFrom cnCallAt none s

/-- The greedy run `[^"'\x60]*`: the longest prefix without a quote, and the rest. -/
def spanNonQuote : Str → Str × Str
  | [] => ([], [])
  | c :: rest =>
    if isQuote c then ([], c :: rest)
    else ((c :: (spanNonQuote rest).1), (spanNonQuote rest).2)

/-- The wrapping rule: `\bclassName=(["'\x60])([^"'\x60]{60,})\1` with its callback. -/
def wrapMatch : Matcher := fun prev s =>
  if wordBoundary prev s.head? then
    match afterLit litClassName s with
    | some (q :: body) =>
      if isQuote q then
        let cls := (spanNonQuote body).1
        if 60 ≤ cls.length && (spanNonQuote body).2.head? == some q then
          let m := litClassName ++ [q] ++ cls ++ [q]
          if includes [36, 123] cls || includes [123] cls || includes [125] cls then
            some (m.length, m)
          else if includes [10] cls then some (m.length, m)
          else some (m.length,
            litClassName ++ [123, 99, 110, 40] ++ [q] ++ cls ++ [q] ++ [41, 125])
        else none
      else none
    | _ => none
  else none

/-- The regular expression `[ \t]+$` replaced by the empty string in one line: the
leftmost position from which only blanks follow is where the line is cut. -/
def rstrip : Str → Str
  | [] => []
  | c :: rest => if (c :: rest).all isBlank then [] else c :: rstrip rest

/-- `out.split('\n').map((l) => l.replace(/[ \t]+$/g, '')).join('\n')`. -/
def stripTrailing (s : Str) : Str := joinNL ((splitNL s).map rstrip)

/-- The function `applyHeuristicPolish(source, { filePath })`. -/
def applyHeuristicPolish (source : Str) (filePath : Str) : Str :=
  let out := normalizeZinc source
  let out := replaceAll headingMatch out
  let out := if hasCnCall out then replaceAll wrapMatch out else out
  let _unused := filePath
  stripTrailing out

/-- The code unit before the position reached after passing over a text that itself
follows the code unit `prev`. -/
def lastOr (prev : Option Nat) : Str → Option Nat
  | [] => prev
  | c :: t => lastOr (some c) t

/-- At every position of the text `t`, which follows the code unit `prev` and is
followed by `rest`, the regular expression either does not match, or its match ends
inside `t` and is replaced by the matched text itself. -/
def leftAlone (m : Matcher) : Option Nat → Str → Str → Bool
  | _, [], _ => true
  | prev, c :: t, rest =>
    (match m prev (c :: t ++ rest) with
      | none => true
      | some (n, rep) =>
        decide (1 ≤ n) && decide (n ≤ (c :: t).length) && rep == (c :: t).take n) &&
    leftAlone m (some c) t rest

/-- The text that holds the attribute `className="L"` between `pre` and `post`. -/
def withAttr (pre L post : Str) : Str :=
  pre ++ u16 "className=\"" ++ L ++ u16 "\"" ++ post

/-- The text that holds the wrapped attribute `className={cn("L")}` between `pre`
and `post`. -/
def withWrapped (pre L post : Str) : Str :=
  pre ++ u16 "className=\x7bcn(\"" ++ L ++ u16 "\")\x7d" ++ post

/-- A class string of 63 code units without quote, brace or line break. -/
def longClass : Str :=
  u16 "mx-auto flex max-w-3xl items-center gap-4 px-4 py-2 font-medium"

/-- A class string of 67 code units that holds a brace. -/
def bracedClass : Str :=
  u16 "mx-auto flex max-w-3xl items-center gap-4 px-4 py-2 font-medium {x}"

/-- The rest of a text in which a second attribute with a class string of 65 code
units and a call `cn(` follow. -/
def secondLongAttr : Str :=
  u16 "><p className=\"mx-auto flex max-w-3xl items-center gap-4 px-4 py-2 font-semibold\">cn(a)</p></div>"

/-! ## `fs.js`: the glob compiler -/

/-- The pieces of regular-expression source that `globToRegExp` appends to `re`. -/
inductive ReNode
  /-- The piece `(?:.*/)?`. -/
  | optDirs
  /-- The piece `.*`. -/
  | anyRun
  /-- The piece `[^/]*`. -/
  | segRun
  /-- The piece `[^/]`. -/
  | segChar
  /-- The piece `esc(c)`: the code unit `c`, escaped when it is a metacharacter. -/
  | lit (c : Nat)
  deriving DecidableEq, Repr

/-- The loop of `globToRegExp(glob)`: the pieces between `^` and `$`, in order. -/
def globToRegExp : Str → List ReNode
  | [] => []
  | 42 :: 42 :: 47 :: rest => .optDirs :: globToRegExp rest
  | 42 :: 42 :: rest => .anyRun :: globToRegExp rest
  | 42 :: rest => .segRun :: globToRegExp rest
  | 63 :: rest => .segChar :: globToRegExp rest
  | c :: rest => .lit c :: globToRegExp rest

/-- A starred class followed by the rest of the expression: the class takes any
number of code units it accepts, then the continuation has to match. -/
def starThen (ok : Nat → Bool) (k : Str → Bool) : Str → Bool
  | [] => k []
  | c :: rest => k (c :: rest) || (ok c && starThen ok k rest)

/-- The group `.*/` followed by the rest of the expression. -/
def dirsThen (k : Str → Bool) : Str → Bool
  | [] => false
  | c :: rest => (c == 47 && k rest) || (!isLineTerminator c && dirsThen k rest)

/-- `new RegExp('^' + pieces + '$').test(p)`. -/
def matchNodes : List ReNode → Str → Bool
  | [], s => s.isEmpty
  | .optDirs :: ns, s => matchNodes ns s || dirsThen (matchNodes ns) s
  | .anyRun :: ns, s => starThen (fun c => !isLineTerminator c) (matchNodes ns) s
  | .segRun :: ns, s => starThen (fun c => c != 47) (matchNodes ns) s
  | .segChar :: ns, s =>
    match s with
    | c :: rest => c != 47 && matchNodes ns rest
    | [] => false
  | .lit c :: ns, s =>
    match s with
    | d :: rest => d == c && matchNodes ns rest
    | [] => false

/-- `globToRegExp(glob).test(p)`. -/
def globTest (glob p : Str) : Bool := matchNodes (globToRegExp glob) p

/-- `compileMatchers(globs)`: empty patterns are filtered out, any pattern may match. -/
def compileMatchers (globs : List Str) (p : Str) : Bool :=
  ((globs.filter (fun g => !g.isEmpty)).map globToRegExp).any (fun r => matchNodes r p)

/-- The eight directory names of `DEFAULT_IGNORES`. -/
def ignoredNames : List Str :=
  [u16 ".git", u16 ".next", u16 "dist", u16 "build", u16 "out", u16 "coverage",
   u16 "node_modules", u16 ".designv1"]

/-- `DEFAULT_IGNORES`. -/
def DEFAULT_IGNORES : List Str :=
  [u16 "**/.git/**", u16 "**/.next/**", u16 "**/dist/**", u16 "**/build/**",
   u16 "**/out/**", u16 "**/coverage/**", u16 "**/node_modules/**", u16 "**/.designv1/**"]

/-! ## `fs.js`: the directory walk -/

/-- A directory entry: a regular file, a directory (whose `readdir` succeeds or
throws) with its named entries, or anything else (symbolic link, socket, ...). -/
inductive Entry
  | file
  | other
  | dir (readable : Bool) (entries : List (Str × Entry))

mutual
/-- The number of directories in an entry, itself included. -/
def Entry.dirCount : Entry → Nat
  | .file => 0
  | .other => 0
  | .dir _ es => 1 + dirCountList es
/-- The number of directories in a list of entries. -/
def dirCountList : List (Str × Entry) → Nat
  | [] => 0
  | (_, e) :: rest => e.dirCount + dirCountList rest
end

/-- `fs.readdir(dir, { withFileTypes: true })`: `none` when it throws. -/
def readdir : Entry → Option (List (Str × Entry))
  | .dir true es => some es
  | _ => none

/-- The root-relative, slash-separated path of `path.join(dir, name)`. -/
def childRel (dir name : Str) : Str :=
  if dir = [] then name else dir ++ 47 :: name

/-- The entries of one directory for which `ent.isFile()` holds, in order. -/
def yieldedFiles (dir : Str) : List (Str × Entry) → List Str
  | [] => []
  | (name, .file) :: rest => childRel dir name :: yieldedFiles dir rest
  | _ :: rest => yieldedFiles dir rest

/-- The entries of one directory for which `ent.isDirectory()` holds, in order. -/
def pushedDirs (dir : Str) : List (Str × Entry) → List (Str × Entry)
  | [] => []
  | (name, .dir r es) :: rest => (childRel dir name, .dir r es) :: pushedDirs dir rest
  | _ :: rest => pushedDirs dir rest

/-- The `while (queue.length)` loop of `walkFiles`: the last directory is popped;
an unreadable one is skipped; the files are yielded and the directories pushed. -/
def walkLoop : Nat → List (Str × Entry) → List Str
  | 0, _ => []
  | fuel + 1, queue =>
    match queue.getLast? with
    | none => []
    | some (dir, e) =>
      match readdir e with
      | none => walkLoop fuel queue.dropLast
      | some entries =>
        yieldedFiles dir entries ++ walkLoop fuel (queue.dropLast ++ pushedDirs dir entries)

/-- The generator `walkFiles(rootDir)`: the root-relative paths of the files it
yields, in order. One turn of the loop is spent per directory. -/
def walkFiles (root : Entry) : List Str :=
  walkLoop (root.dirCount + 1) [([], root)]

/-- The turns of the loop of `walkFiles` that an entry of the queue can cost: one
for the entry and one for each directory below it. -/
def Entry.visits : Entry → Nat
  | .dir r es => (Entry.dir r es).dirCount
  | _ => 1

/-- The root-relative path of the entry reached from the directory `dir` by a list
of names. -/
def relPath (dir : Str) : List Str → Str
  | [] => dir
  | n :: ns => relPath (childRel dir n) ns

/-- A regular file lies beneath an entry at a path of names; with `readableOnly`
every directory on the way has to be readable. -/
inductive FileAt (readableOnly : Bool) : Entry → List Str → Prop
  | file {r : Bool} {es : List (Str × Entry)} {name : Str} :
      (readableOnly = true → r = true) → (name, Entry.file) ∈ es →
      FileAt readableOnly (.dir r es) [name]
  | step {r : Bool} {es : List (Str × Entry)} {name : Str} {child : Entry}
      {names : List Str} :
      (readableOnly = true → r = true) → (name, child) ∈ es →
      FileAt readableOnly child names → FileAt readableOnly (.dir r es) (name :: names)

/-- An entry of the result of `listFiles`. -/
structure FileEntry where
  abs : Str
  rel : Str
  deriving DecidableEq, Repr

/-- `path.join(cwd, rel)` for a root-relative path. -/
def absOf (cwd rel : Str) : Str := cwd ++ 47 :: rel

/-- The ignore predicate of `listFiles`: the built-in patterns and the exclude flag. -/
def isIgnored (excl : Option Str) (p : Str) : Bool :=
  compileMatchers (DEFAULT_IGNORES ++ (match excl with
    | some e => if e.isEmpty then [] else [e]
    | none => [])) p

/-- The include predicate of `listFiles`; `none` when no include flag is given. -/
def isIncluded (incl : Option Str) : Option (Str → Bool) :=
  match incl with
  | some i => if i.isEmpty then none else some (compileMatchers [i])
  | none => none

/-- The test of the loop of `listFiles` on one yielded path. -/
def eligible (incl excl : Option Str) (rel : Str) : Bool :=
  !(rel.isEmpty || startsWith rel [46, 46]) && !isIgnored excl rel &&
    (match isIncluded incl with
      | some inc => inc rel
      | none => true)

/-- The `for await` loop of `listFiles` over the yielded paths; `maxFiles = 0`
stands for a falsy cap. -/
def listLoop (cwd : Str) (maxFiles : Nat) (incl excl : Option Str) :
    List Str → List FileEntry → List FileEntry
  | [], out => out
  | rel :: more, out =>
    if rel.isEmpty || startsWith rel [46, 46] then listLoop cwd maxFiles incl excl more out
    else if isIgnored excl rel then listLoop cwd maxFiles incl excl more out
    else if (match isIncluded incl with
        | some inc => !inc rel
        | none => false) then listLoop cwd maxFiles incl excl more out
    else
      let out2 := out ++ [{ abs := absOf cwd rel, rel := rel }]
      if maxFiles != 0 && maxFiles ≤ out2.length then out2
      else listLoop cwd maxFiles incl excl more out2

/-- The function `listFiles({ cwd, maxFiles, include, exclude })` on a tree. -/
def listFiles (root : Entry) (cwd : Str) (maxFiles : Nat) (incl excl : Option Str) :
    List FileEntry :=
  listLoop cwd maxFiles incl excl (walkFiles root) []

/-! ## `polish/openai.js` and `improve.js`: the edit pipeline -/

/-- The provenance tag of an edit. -/
inductive Source
  | heuristics
  | openai
  deriving DecidableEq, Repr

/-- An edit `{ rel, abs, before, after, source }`. -/
structure Edit where
  rel : Str
  abs : Str
  before : Str
  after : Str
  source : Source
  deriving DecidableEq, Repr

/-- What `readTextFile(abs, maxBytes)` does: it throws when `fs.readFile` rejects,
returns `null` for oversized or binary content, and the decoded text otherwise. -/
inductive ReadResult
  | throws
  | null
  | text (s : Str)
  deriving DecidableEq, Repr

/-- One element of the array the provider returned: a falsy value, or a value
whose `rel` and `after` properties are strings or not. -/
inductive RawEntry
  | falsy
  | obj (rel : Option Str) (after : Option Str)
  deriving DecidableEq, Repr

/-- What the request to the provider comes to. -/
inductive ProviderReply
  /-- The promise of `fetch` rejects. -/
  | fetchRejects
  /-- The response has `ok` false. -/
  | notOk
  /-- The promise of `res.json()` rejects. -/
  | bodyNotJson
  /-- `extractText(json)` is `null` or empty. -/
  | noText
  /-- `JSON.parse(text)` throws. -/
  | textNotJson
  /-- `JSON.parse(text)` is not an array. -/
  | notArray
  /-- `JSON.parse(text)` is this array. -/
  | array (entries : List RawEntry)

/-- The surroundings of one run: the file system as the reads see it, the
environment, the provider, the hash function and the clock. -/
structure Env where
  /-- `readTextFile(abs, maxBytes)`. -/
  readTextFile : Str → Nat → ReadResult
  /-- `readFileSafe(abs)`: `none` for `null`. -/
  readFileSafe : Str → Option Str
  /-- `path.join(cwd, rel)` for a path the provider names. -/
  pathJoin : Str → Str → Str
  /-- `process.env.OPENAI_API_KEY`, `none` when unset. -/
  apiKey : Option Str
  /-- The outcome of the provider request. -/
  provider : ProviderReply
  /-- The bytes of `crypto.createHash('sha1').update(s).digest()`. -/
  sha1 : Str → List Nat
  /-- `new Date().toISOString()`. -/
  now : Str

/-- `Boolean(process.env.OPENAI_API_KEY)`. -/
def Env.canUseLLM (env : Env) : Bool :=
  match env.apiKey with
  | some k => !k.isEmpty
  | none => false

/-- `String.prototype.endsWith`. -/
def endsWith (s suffix : Str) : Bool := (afterLit suffix.reverse s.reverse).isSome

/-- `/\.(tsx|jsx|ts|js|mdx)$/.test(rel)`. -/
def isUiFile (rel : Str) : Bool :=
  endsWith rel (u16 ".tsx") || endsWith rel (u16 ".jsx") || endsWith rel (u16 ".ts") ||
  endsWith rel (u16 ".js") || endsWith rel (u16 ".mdx")

/-- The first loop of `improveCodebase`: the heuristic edits, or `none` when a read
throws. -/
def heuristicEdits (env : Env) : List FileEntry → Option (List Edit)
  | [] => some []
  | f :: more =>
    match env.readTextFile f.abs 262144 with
    | .throws => none
    | .null => heuristicEdits env more
    | .text t =>
      if t.isEmpty then heuristicEdits env more
      else
        let next := applyHeuristicPolish t f.rel
        (heuristicEdits env more).map (fun es =>
          if next ≠ t then
            { rel := f.rel, abs := f.abs, before := t, after := next, source := .heuristics } :: es
          else es)

/-- The first loop of `proposeEditsWithOpenAI`: the candidate files with their text,
or `none` when a read throws. -/
def candidateTexts (env : Env) (cwd : Str) : List FileEntry → Option (List (Str × Str))
  | [] => some []
  | f :: more =>
    match env.readTextFile (env.pathJoin cwd f.rel) 65536 with
    | .throws => none
    | .null => candidateTexts env cwd more
    | .text t =>
      if t.isEmpty then candidateTexts env cwd more
      else (candidateTexts env cwd more).map (fun fs => (f.rel, t) :: fs)

/-- The last loop of `proposeEditsWithOpenAI` over the parsed array. -/
def proposedEdits (env : Env) (cwd : Str) : List RawEntry → List Edit
  | [] => []
  | .obj (some rel) (some after) :: more =>
    match env.readFileSafe (env.pathJoin cwd rel) with
    | none => proposedEdits env cwd more
    | some before =>
      if before = after then proposedEdits env cwd more
      else
        { rel := rel, abs := env.pathJoin cwd rel, before := before, after := after,
          source := .openai } :: proposedEdits env cwd more
  | _ :: more => proposedEdits env cwd more

/-- The function `proposeEditsWithOpenAI`: the proposed edits, or `none` when it
raises. -/
def proposeEditsWithOpenAI (env : Env) (cwd : Str) (candidateFiles : List FileEntry) :
    Option (List Edit) :=
  if !env.canUseLLM then some []
  else
    match candidateTexts env cwd candidateFiles with
    | none => none
    | some files =>
      if files.isEmpty then some []
      else
        match env.provider with
        | .fetchRejects => none
        | .notOk => some []
        | .bodyNotJson => none
        | .noText => some []
        | .textNotJson => some []
        | .notArray => some []
        | .array entries => some (proposedEdits env cwd entries)

/-- `Map.prototype.set` on the entries of a map in insertion order: the value of a
present key is replaced in place, a new key goes to the end. -/
def mapSet (k : Str) (v : Edit) : List (Str × Edit) → List (Str × Edit)
  | [] => [(k, v)]
  | (k2, v2) :: rest => if k2 = k then (k, v) :: rest else (k2, v2) :: mapSet k v rest

/-- `for (const e of edits) byRel.set(e.rel, e)` followed by `[...byRel.values()]`. -/
def dedupeByRel (edits : List Edit) : List Edit :=
  (edits.foldl (fun m e => mapSet e.rel e m) []).map Prod.snd

/-- The last edit of a list that targets a path. -/
def lastFor (p : Str) (es : List Edit) : Option Edit :=
  (es.filter (fun e => e.rel = p)).getLast?

/-- The order of the default `Array.prototype.sort`: strings by code units. -/
def strLe : Str → Str → Bool
  | [], _ => true
  | _ :: _, [] => false
  | a :: as, b :: bs => decide (a < b) || (a == b && strLe as bs)

/-- The flags of the command line that the pipeline reads. -/
structure Flags where
  maxFiles : Nat := 0
  incl : Option Str := none
  excl : Option Str := none

/-- One hexadecimal digit, lower case. -/
def hexDigit (d : Nat) : Nat := if d < 10 then 48 + d else 87 + d

/-- The encoding `digest('hex')` of a list of bytes. -/
def hexOf : List Nat → Str
  | [] => []
  | b :: rest => hexDigit (b / 16 % 16) :: hexDigit (b % 16) :: hexOf rest

/-- `shortHash(s)`: the first seven digits of the hexadecimal digest. -/
def shortHash (env : Env) (s : Str) : Str := (hexOf (env.sha1 s)).take 7

/-- A number inside a template literal. -/
def decimal (n : Nat) : Str := (Nat.toDigits 10 n).map Char.toNat

/-- The lines that `buildUnifiedPatch` pushes for one edit. -/
def editLines (env : Env) (e : Edit) : List Str :=
  [u16 "diff --git a/" ++ e.rel ++ u16 " b/" ++ e.rel,
   u16 "index " ++ shortHash env e.before ++ u16 ".." ++ shortHash env e.after ++ u16 " 100644",
   u16 "--- a/" ++ e.rel,
   u16 "+++ b/" ++ e.rel,
   u16 "@@ -1," ++ decimal (splitNL e.before).length ++ u16 " +1," ++
     decimal (splitNL e.after).length ++ u16 " @@"] ++
  (splitNL e.before).map (fun l => 45 :: l) ++
  (splitNL e.after).map (fun l => 43 :: l) ++
  [[]]

/-- The array `lines` of `buildUnifiedPatch(cwd, edits)` when the loop is done. -/
def patchLines (env : Env) (cwd : Str) (edits : List Edit) : List Str :=
  edits.foldl (fun lines e => lines ++ editLines env e)
    [u16 "# DesignV1 patch", u16 "# Root: " ++ cwd, u16 "# Generated: " ++ env.now, []]

/-- The function `buildUnifiedPatch(cwd, edits)`. -/
def buildUnifiedPatch (env : Env) (cwd : Str) (edits : List Edit) : Str :=
  joinNL (patchLines env cwd edits) ++ [10]

/-- The lines of a patch document that open a per-file section. -/
def sectionHeaders (doc : Str) : List Str :=
  (splitNL doc).filter (fun l => startsWith l (u16 "diff --git "))

/-- The distinct paths of a list in the order of their first occurrence. -/
def firstOccurrences : List Str → List Str
  | [] => []
  | k :: ks => k :: (firstOccurrences ks).filter (fun x => x ≠ k)

/-- What `improveCodebase` computes before it writes: the final edits, the sorted
changed paths and the patch document. -/
structure Improved where
  finalEdits : List Edit
  changedFiles : List Str
  patch : Str
  deriving DecidableEq, Repr

/-- The constant `uiFiles` of `improveCodebase`: the discovered files with a source
extension, in discovery order. -/
def uiFiles (root : Entry) (cwd : Str) (flags : Flags) : List FileEntry :=
  (listFiles root cwd (if flags.maxFiles = 0 then 800 else flags.maxFiles)
    flags.incl flags.excl).filter (fun f => isUiFile f.rel)

/-- The constant `llmEdits` of `improveCodebase`, empty when the provider step is
switched off; `none` when the step raises. -/
def llmEdits (env : Env) (cwd : Str) (ui : List FileEntry) : Option (List Edit) :=
  if env.canUseLLM then proposeEditsWithOpenAI env cwd (ui.take 30) else some []

/-- The function `improveCodebase({ cwd, flags })` up to the writes, on a tree;
`none` when a read or the provider step raises. -/
def improveCodebase (env : Env) (root : Entry) (cwd : Str) (flags : Flags) : Option Improved :=
  match heuristicEdits env (uiFiles root cwd flags) with
  | none => none
  | some edits =>
    match llmEdits env cwd (uiFiles root cwd flags) with
    | none => none
    | some fromLLM =>
      let finalEdits := dedupeByRel (edits ++ fromLLM)
      some
        { finalEdits := finalEdits
          changedFiles := (finalEdits.map (fun e => e.rel)).insertionSort
            (fun a b => strLe a b = true)
          patch := buildUnifiedPatch env cwd finalEdits }

/-! ## Sample runs -/

/-- A stand-in for the digest: four bytes computed from the code units. -/
def sampleHash (s : Str) : List Nat :=
  [s.length % 256, s.foldl (fun a c => a + c) 7 % 256, 90, 165]

/-- A run in which `/repo/src/a.tsx` and `/repo/src/b.tsx` hold a line with a
trailing blank, every other path is unreadable, and the provider, when the key is
set, proposes new content for `src/a.tsx`. -/
def sampleEnv (key : Option Str) : Env where
  readTextFile := fun abs _ =>
    if abs = u16 "/repo/src/a.tsx" then .text (u16 "const a = 1; \n")
    else if abs = u16 "/repo/src/b.tsx" then .text (u16 "const b = 2; \n")
    else .throws
  readFileSafe := fun abs =>
    if abs = u16 "/repo/src/a.tsx" then some (u16 "const a = 1; \n")
    else if abs = u16 "/repo/src/b.tsx" then some (u16 "const b = 2; \n")
    else none
  pathJoin := absOf
  apiKey := key
  provider := .array [.obj (some (u16 "src/a.tsx")) (some (u16 "const a = 3;\n"))]
  sha1 := sampleHash
  now := u16 "2025-01-01T00:00:00.000Z"

/-- A tree in which the walk yields `src/b.tsx` before `src/a.tsx`. -/
def sampleTree : Entry :=
  .dir true [(u16 "src", .dir true [(u16 "b.tsx", .file), (u16 "a.tsx", .file)])]

/-- The heuristic edit of the sample run for `src/a.tsx`. -/
def sampleHeuristicA : Edit :=
  { rel := u16 "src/a.tsx", abs := u16 "/repo/src/a.tsx", before := u16 "const a = 1; \n",
    after := u16 "const a = 1;\n", source := .heuristics }

/-- The heuristic edit of the sample run for `src/b.tsx`. -/
def sampleHeuristicB : Edit :=
  { rel := u16 "src/b.tsx", abs := u16 "/repo/src/b.tsx", before := u16 "const b = 2; \n",
    after := u16 "const b = 2;\n", source := .heuristics }

/-- The external edit of the sample run for `src/a.tsx`. -/
def sampleExternalA : Edit :=
  { rel := u16 "src/a.tsx", abs := u16 "/repo/src/a.tsx", before := u16 "const a = 1; \n",
    after := u16 "const a = 3;\n", source := .openai }

/-- The result of the sample run with the provider switched on. -/
def sampleImproved : Improved :=
  { finalEdits := [sampleHeuristicB, sampleExternalA]
    changedFiles := [u16 "src/a.tsx", u16 "src/b.tsx"]
    patch := buildUnifiedPatch (sampleEnv (some (u16 "sk-test"))) (u16 "/repo")
      [sampleHeuristicB, sampleExternalA] }

/-- The result of the sample run with the provider switched off. -/
def sampleImprovedLocal : Improved :=
  { finalEdits := [sampleHeuristicB, sampleHeuristicA]
    changedFiles := [u16 "src/a.tsx", u16 "src/b.tsx"]
    patch := buildUnifiedPatch (sampleEnv none) (u16 "/repo")
      [sampleHeuristicB, sampleHeuristicA] }

/-- A tree with a file in an unreadable directory and a file in a readable one. -/
def lockedTree : Entry :=
  .dir true
    [(u16 "locked", .dir false [(u16 "a.js", .file)]),
     (u16 "src", .dir true [(u16 "x.js", .file)])]

/-- A text whose first heading attribute is long and carries no size token, followed
in the same tag by a second `className` with a size token. -/
def twoAttrHeading : Str :=
  u16 "<h1 className=\"mx-auto max-w-3xl px-4 py-2 font-semibold tracking-tight leading-snug\" className=\"text-2xl\">cn(x)</h1>"

/-- A tree with one file in a source directory and, under `node_modules`, one file
whose name holds a line feed and one whose name does not. -/
def lineFeedTree : Entry :=
  .dir true
    [(u16 "node_modules", .dir true
        [(u16 "pkg", .dir true [(u16 "a\nb.js", .file), (u16 "index.js", .file)])]),
     (u16 "src", .dir true [(u16 "x.js", .file)])]

/-! ## `fs.js`: reading a file -/

/-- The function `readTextFile(absPath, maxBytes)`: `readFile` is `fs.readFile`,
which gives the bytes of a file or rejects (`none`), and `decode` is
`buf.toString('utf8')`. Nothing catches the rejection. -/
def readTextFile (readFile : Str → Option (List Nat)) (decode : List Nat → Str)
    (absPath : Str) (maxBytes : Nat) : ReadResult :=
  match readFile absPath with
  | none => .throws
  | some buf =>
    if maxBytes < buf.length then .null
    else if (buf.take 1000).any (fun b => b == 0) then .null
    else .text (decode buf)

/-- A file system with one text file of five bytes, one file with a zero byte, and
nothing else. -/
def sampleReadFile (absPath : Str) : Option (List Nat) :=
  if absPath = u16 "/repo/src/a.tsx" then some [99, 111, 110, 115, 116]
  else if absPath = u16 "/repo/logo.js" then some [137, 80, 0, 71]
  else none

/-- A run like `sampleEnv` with the key set and a given outcome of the provider
request. -/
def sampleEnvWith (reply : ProviderReply) : Env :=
  { sampleEnv (some (u16 "sk-test")) with provider := reply }

/-! ## `improve.js`: the writes -/

/-- The mode of a run. -/
inductive Mode
  | apply
  | dryRun
  | patch
  deriving DecidableEq, Repr

/-- The flags that `improveCodebase` reads besides those of the discovery. -/
structure RunFlags extends Flags where
  apply : Bool := false
  dryRun : Bool := false
  instructions : Option Str := none

/-- `flags.apply ? 'apply' : flags.dryRun ? 'dry-run' : 'patch'`. -/
def modeOf (flags : RunFlags) : Mode :=
  if flags.apply then .apply else if flags.dryRun then .dryRun else .patch

/-- The object `report`; `scan` stands for the value that `scanCodebase` returned. -/
structure Report where
  root : Str
  mode : Mode
  scan : Str
  instructions : Option Str
  changedFiles : List Str
  edits : List (Str × Source)
  createdAt : Str
  deriving DecidableEq, Repr

/-- What a run of `improveCodebase` does and returns: the directories it makes, the
calls of `fs.writeFile` in order, each with path and content, and the returned
mode and paths. -/
structure RunResult where
  mode : Mode
  changedFiles : List Str
  patchPath : Option Str
  reportPath : Str
  mkdirs : List Str
  writes : List (Str × Str)
  deriving DecidableEq, Repr

/-- `new Date().toISOString().replaceAll(':', '-')`. -/
def stampOf (now : Str) : Str := now.map (fun c => if c = 58 then 45 else c)

/-- The path of the report of a run. -/
def reportPathOf (env : Env) (cwd : Str) : Str :=
  env.pathJoin (env.pathJoin (env.pathJoin cwd (u16 ".designv1")) (u16 "reports"))
    (u16 "improve-" ++ stampOf env.now ++ u16 ".json")

/-- The path of the patch file of a run. -/
def patchPathOf (env : Env) (cwd : Str) : Str :=
  env.pathJoin (env.pathJoin (env.pathJoin cwd (u16 ".designv1")) (u16 "patches"))
    (u16 "improve-" ++ stampOf env.now ++ u16 ".patch")

/-- The function `improveCodebase({ cwd, flags })` with its writes, every write
succeeding; `stringify` is `JSON.stringify(report, null, 2)` and `scan` the result
of `scanCodebase`; `none` when a read or the provider step raises. -/
def improveCodebaseWrites (env : Env) (stringify : Report → Str) (scan : Str) (root : Entry)
    (cwd : Str) (flags : RunFlags) : Option RunResult :=
  match improveCodebase env root cwd flags.toFlags with
  | none => none
  | some r =>
    let mode := modeOf flags
    let outDir := env.pathJoin cwd (u16 ".designv1")
    let patchesDir := env.pathJoin outDir (u16 "patches")
    let reportsDir := env.pathJoin outDir (u16 "reports")
    let reportPath := reportPathOf env cwd
    let patchPath := patchPathOf env cwd
    let report : Report :=
      { root := cwd
        mode := mode
        scan := scan
        instructions := (match flags.instructions with
          | some i => if i.isEmpty then none else some i
          | none => none)
        changedFiles := r.changedFiles
        edits := r.finalEdits.map (fun e => (e.rel, e.source))
        createdAt := env.now }
    let reportWrite := (reportPath, stringify report)
    match mode with
    | .apply =>
      some
        { mode := mode, changedFiles := r.changedFiles, patchPath := none
          reportPath := reportPath, mkdirs := [patchesDir, reportsDir]
          writes := reportWrite :: r.finalEdits.map (fun e => (e.abs, e.after)) }
    | .dryRun =>
      some
        { mode := mode, changedFiles := r.changedFiles, patchPath := none
          reportPath := reportPath, mkdirs := [patchesDir, reportsDir]
          writes := [reportWrite] }
    | .patch =>
      some
        { mode := mode, changedFiles := r.changedFiles, patchPath := some patchPath
          reportPath := reportPath, mkdirs := [patchesDir, reportsDir]
          writes := [reportWrite, (patchPath, r.patch)] }

/-- The content of every path after a list of successful `fs.writeFile` calls on a
file system. -/
def afterWrites (fs : Str → Option Str) : List (Str × Str) → Str → Option Str
  | [] => fs
  | (p, c) :: rest => afterWrites (fun q => if q = p then some c else fs q) rest

/-- A stand-in for `JSON.stringify(report, null, 2)`: the changed paths, one per
line. -/
def sampleStringify (r : Report) : Str := joinNL r.changedFiles

/-- The file system of the sample run before it. -/
def sampleFs (p : Str) : Option Str :=
  if p = u16 "/repo/src/a.tsx" then some (u16 "const a = 1; \n")
  else if p = u16 "/repo/src/b.tsx" then some (u16 "const b = 2; \n")
  else none

/-- The result of the sample run in patch mode with the provider switched off. -/
def samplePatchRun : RunResult :=
  { mode := .patch
    changedFiles := [u16 "src/a.tsx", u16 "src/b.tsx"]
    patchPath := some (u16 "/repo/.designv1/patches/improve-2025-01-01T00-00-00.000Z.patch")
    reportPath := u16 "/repo/.designv1/reports/improve-2025-01-01T00-00-00.000Z.json"
    mkdirs := [u16 "/repo/.designv1/patches", u16 "/repo/.designv1/reports"]
    writes :=
      [(u16 "/repo/.designv1/reports/improve-2025-01-01T00-00-00.000Z.json",
        u16 "src/a.tsx\nsrc/b.tsx"),
       (u16 "/repo/.designv1/patches/improve-2025-01-01T00-00-00.000Z.patch",
        sampleImprovedLocal.patch)] }

/-! ## The heading rule on one tag -/

/-- The text `<hN className="C">` for the heading level `n`. -/
def headingTag (n : Nat) (C : Str) : Str :=
  u16 "<h" ++ [48 + n] ++ u16 " className=\"" ++ C ++ u16 "\">"

/-- The number of positions of a text at which a literal starts. -/
def occurrences (needle : Str) : Str → Nat
  | [] => 0
  | c :: rest =>
    (if (afterLit needle (c :: rest)).isSome then 1 else 0) + occurrences needle rest

/-! ## The glob compiler -/

theorem dirsThen_iff (k : Str → Bool) (p : Str) (hp : ∀ c ∈ p, isLineTerminator c = false) :
    dirsThen k p = true ↔ ∃ u v, p = u ++ 47 :: v ∧ k v = true := by
  induction p with
  | nil => simp [dirsThen]
  | cons c rest ih =>
    have hc : isLineTerminator c = false := hp c (List.mem_cons_self _ _)
    have hrest : ∀ d ∈ rest, isLineTerminator d = false :=
      fun d hd => hp d (List.mem_cons_of_mem _ hd)
    simp only [dirsThen, Bool.or_eq_true, Bool.and_eq_true, beq_iff_eq, hc, Bool.not_false,
      true_and, ih hrest]
    constructor
    · rintro (⟨rfl, hk⟩ | ⟨u, v, rfl, hk⟩)
      · exact ⟨[], rest, rfl, hk⟩
      · exact ⟨c :: u, v, rfl, hk⟩
    · rintro ⟨u, v, huv, hk⟩
      cases u with
      | nil =>
        simp only [List.nil_append, List.cons.injEq] at huv
        obtain ⟨rfl, rfl⟩ := huv
        exact Or.inl ⟨rfl, hk⟩
      | cons d u =>
        simp only [List.cons_append, List.cons.injEq] at huv
        obtain ⟨rfl, rfl⟩ := huv
        exact Or.inr ⟨u, v, rfl, hk⟩

theorem starThen_split (ok : Nat → Bool) (k : Str → Bool) (p : Str) :
    starThen ok k p = true ↔ ∃ a b, p = a ++ b ∧ (∀ c ∈ a, ok c = true) ∧ k b = true := by
  induction p with
  | nil =>
    simp only [starThen]
    constructor
    · intro h
      exact ⟨[], [], rfl, by simp, h⟩
    · rintro ⟨a, b, hab, -, hk⟩
      have hb : b = [] := (List.append_eq_nil.mp hab.symm).2
      simpa [hb] using hk
  | cons c rest ih =>
    simp only [starThen, Bool.or_eq_true, Bool.and_eq_true, ih]
    constructor
    · rintro (hk | ⟨hc, a, b, rfl, ha, hk⟩)
      · exact ⟨[], c :: rest, rfl, by simp, hk⟩
      · refine ⟨c :: a, b, rfl, ?_, hk⟩
        intro d hd
        rcases List.mem_cons.mp hd with rfl | hd
        · exact hc
        · exact ha d hd
    · rintro ⟨a, b, hab, ha, hk⟩
      cases a with
      | nil =>
        simp only [List.nil_append] at hab
        subst hab
        exact Or.inl hk
      | cons d a =>
        simp only [List.cons_append, List.cons.injEq] at hab
        obtain ⟨rfl, rfl⟩ := hab
        exact Or.inr ⟨ha c (List.mem_cons_self _ _), a, b, rfl,
          fun e he => ha e (List.mem_cons_of_mem _ he), hk⟩

theorem u16_globstar_slash : u16 "**/" = [42, 42, 47] := by decide

/-- C8: the pattern `**/` followed by a glob `R` matches a path without line
terminators exactly when `R` matches the whole path or the part of the path after
one of its slashes; `**/build/**` matches `a/build/x.js` and `build/x.js` but not
`xbuild/x.js`. -/
theorem globstar_slash_zero_or_more_segments :
    (∀ R p : Str, (∀ c ∈ p, isLineTerminator c = false) →
      (globTest (u16 "**/" ++ R) p = true ↔
        (globTest R p = true ∨ ∃ u v, p = u ++ 47 :: v ∧ globTest R v = true))) ∧
    globTest (u16 "**/build/**") (u16 "a/build/x.js") = true ∧
    globTest (u16 "**/build/**") (u16 "build/x.js") = true ∧
    globTest (u16 "**/build/**") (u16 "xbuild/x.js") = false := by
  refine ⟨?_, by decide, by decide, by decide⟩
  intro R p hp
  have hre : globToRegExp (u16 "**/" ++ R) = .optDirs :: globToRegExp R := by
    rw [u16_globstar_slash]
    simp [globToRegExp]
  unfold globTest
  rw [hre]
  simp only [matchNodes, Bool.or_eq_true, dirsThen_iff _ p hp]

theorem globstar_slash_zero_or_more_segments_witness :
    (∀ c ∈ u16 "a/b/src/x.ts", isLineTerminator c = false) ∧
    (globTest (u16 "**/" ++ u16 "src/*.ts") (u16 "a/b/src/x.ts") = true ↔
      (globTest (u16 "src/*.ts") (u16 "a/b/src/x.ts") = true ∨
        ∃ u v, u16 "a/b/src/x.ts" = u ++ 47 :: v ∧ globTest (u16 "src/*.ts") v = true)) :=
  ⟨by decide,
   globstar_slash_zero_or_more_segments.1 (u16 "src/*.ts") (u16 "a/b/src/x.ts") (by decide)⟩

theorem count_slash_of_all_ne (a : Str) (h : ∀ c ∈ a, (c != 47) = true) : a.count 47 = 0 := by
  rw [List.count_eq_zero]
  intro hmem
  simpa using h 47 hmem

theorem matchNodes_count_slash (pat : Str) :
    ∀ p, ¬ ([42, 42] <:+: pat) → matchNodes (globToRegExp pat) p = true →
      p.count 47 = pat.count 47 := by
  induction pat using globToRegExp.induct with
  | case1 =>
    intro p _ h
    simp only [globToRegExp, matchNodes, List.isEmpty_iff] at h
    simp [h]
  | case2 rest _ =>
    intro p hno _
    exact absurd ⟨[], 47 :: rest, rfl⟩ hno
  | case3 rest _ _ =>
    intro p hno _
    exact absurd ⟨[], rest, rfl⟩ hno
  | case4 rest h1 h2 ih =>
    intro p hno h
    have hre : globToRegExp (42 :: rest) = .segRun :: globToRegExp rest := by
      cases rest with
      | nil => simp [globToRegExp]
      | cons d r =>
        have hd : d ≠ 42 := fun hd => h2 r (by rw [hd])
        simp [globToRegExp, hd]
    rw [hre] at h
    simp only [matchNodes] at h
    obtain ⟨a, b, rfl, ha, hb⟩ := (starThen_split _ _ p).mp h
    have hrest : ¬ ([42, 42] <:+: rest) := fun hin => hno (List.infix_cons hin)
    rw [List.count_append, count_slash_of_all_ne a ha, ih b hrest hb]
    simp
  | case5 rest ih =>
    intro p hno h
    have hrest : ¬ ([42, 42] <:+: rest) := fun hin => hno (List.infix_cons hin)
    simp only [globToRegExp, matchNodes] at h
    cases p with
    | nil => simp at h
    | cons c r =>
      simp only [Bool.and_eq_true, bne_iff_ne, ne_eq] at h
      rw [List.count_cons, List.count_cons, ih r hrest h.2]
      simp [h.1]
  | case6 c rest h1 h2 h3 h4 ih =>
    intro p hno h
    have hrest : ¬ ([42, 42] <:+: rest) := fun hin => hno (List.infix_cons hin)
    have hre : globToRegExp (c :: rest) = .lit c :: globToRegExp rest := by
      simp [globToRegExp, h3, h4]
    rw [hre] at h
    simp only [matchNodes] at h
    cases p with
    | nil => simp at h
    | cons d r =>
      simp only [Bool.and_eq_true, beq_iff_eq] at h
      rw [List.count_cons, List.count_cons, ih r hrest h.2, h.1]

/-- C9: a path matched by a glob without `**` has exactly as many slashes as the
glob; `*` matches exactly the runs without a slash and `?` exactly the single code
units other than the slash; `src/*.ts` matches `src/a.ts` but not `src/a/b.ts`, and
`a?c` matches `abc` but none of `ac`, `abbc`, `a/c`. -/
theorem single_star_and_question_stay_in_segment :
    (∀ pat p : Str, ¬ (u16 "**" <:+: pat) → globTest pat p = true →
      p.count 47 = pat.count 47) ∧
    (∀ p : Str, globTest (u16 "*") p = true ↔ 47 ∉ p) ∧
    (∀ p : Str, globTest (u16 "?") p = true ↔ ∃ c, c ≠ 47 ∧ p = [c]) ∧
    globTest (u16 "src/*.ts") (u16 "src/a.ts") = true ∧
    globTest (u16 "src/*.ts") (u16 "src/a/b.ts") = false ∧
    globTest (u16 "a?c") (u16 "abc") = true ∧
    globTest (u16 "a?c") (u16 "ac") = false ∧
    globTest (u16 "a?c") (u16 "abbc") = false ∧
    globTest (u16 "a?c") (u16 "a/c") = false := by
  refine ⟨?_, ?_, ?_, by decide, by decide, by decide, by decide, by decide, by decide⟩
  · intro pat p hno h
    have h2 : u16 "**" = [42, 42] := by decide
    rw [h2] at hno
    exact matchNodes_count_slash pat p hno h
  · intro p
    have h1 : globToRegExp (u16 "*") = [.segRun] := by decide
    unfold globTest
    rw [h1]
    simp only [matchNodes]
    rw [starThen_split]
    constructor
    · rintro ⟨a, b, rfl, ha, hb⟩
      have hb2 : b = [] := by simpa using hb
      subst hb2
      intro hmem
      have := ha 47 (by simpa using hmem)
      simp at this
    · intro hp
      refine ⟨p, [], by simp, ?_, rfl⟩
      intro c hc
      simp only [bne_iff_ne, ne_eq]
      rintro rfl
      exact hp hc
  · intro p
    have h1 : globToRegExp (u16 "?") = [.segChar] := by decide
    unfold globTest
    rw [h1]
    cases p with
    | nil => simp [matchNodes]
    | cons c r =>
      simp only [matchNodes, Bool.and_eq_true, bne_iff_ne, ne_eq, List.isEmpty_iff,
        List.cons.injEq]
      constructor
      · rintro ⟨hc, rfl⟩
        exact ⟨c, hc, rfl, rfl⟩
      · rintro ⟨d, hd, rfl, rfl⟩
        exact ⟨hd, rfl⟩

theorem single_star_and_question_stay_in_segment_witness :
    ¬ (u16 "**" <:+: u16 "src/*.ts") ∧ globTest (u16 "src/*.ts") (u16 "src/a.ts") = true ∧
    (u16 "src/a.ts").count 47 = (u16 "src/*.ts").count 47 :=
  ⟨by decide, by decide,
   single_star_and_question_stay_in_segment.1 (u16 "src/*.ts") (u16 "src/a.ts")
     (by decide) (by decide)⟩

/-! ## The heuristic polish -/

set_option maxRecDepth 1000000 in
/-- C1: on a heading tag whose first `className` literal is long and is wrapped, and
whose second `className` literal carries a size token, the second application adds
`text-balance`, which the first application did not: the function is not idempotent
there. -/
theorem applyHeuristicPolish_second_pass_differs :
    applyHeuristicPolish twoAttrHeading (u16 "src/app/page.tsx") =
      u16 "<h1 className=\x7bcn(\"mx-auto max-w-3xl px-4 py-2 font-semibold tracking-tight leading-snug\")\x7d className=\"text-2xl\">cn(x)</h1>" ∧
    applyHeuristicPolish (applyHeuristicPolish twoAttrHeading (u16 "src/app/page.tsx"))
        (u16 "src/app/page.tsx") =
      u16 "<h1 className=\x7bcn(\"mx-auto max-w-3xl px-4 py-2 font-semibold tracking-tight leading-snug\")\x7d className=\"text-2xl text-balance\">cn(x)</h1>" ∧
    applyHeuristicPolish (applyHeuristicPolish twoAttrHeading (u16 "src/app/page.tsx"))
        (u16 "src/app/page.tsx") ≠
      applyHeuristicPolish twoAttrHeading (u16 "src/app/page.tsx") := by
  refine ⟨by decide, by decide, by decide⟩

/-! ## File discovery -/

set_option maxRecDepth 100000 in
/-- C6: a file below `node_modules` whose name holds a line feed is returned by
`listFiles`, with or without an include pattern, while its sibling without a line
feed is ignored: the `.` of the compiled ignore pattern does not match a line
terminator. -/
theorem listFiles_returns_ignored_dir_file_with_line_feed :
    (listFiles lineFeedTree (u16 "/repo") 0 none none).map (fun f => f.rel) =
      [u16 "src/x.js", u16 "node_modules/pkg/a\nb.js"] ∧
    (listFiles lineFeedTree (u16 "/repo") 0 (some (u16 "node_modules/pkg/*.js")) none).map
        (fun f => f.rel) = [u16 "node_modules/pkg/a\nb.js"] ∧
    isIgnored none (u16 "node_modules/pkg/a\nb.js") = false ∧
    isIgnored none (u16 "node_modules/pkg/index.js") = true := by
  refine ⟨by decide, by decide, by decide, by decide⟩

/-! ## Edit merging -/

theorem mapSet_keys (k : Str) (v : Edit) (m : List (Str × Edit)) :
    (mapSet k v m).map Prod.fst =
      if k ∈ m.map Prod.fst then m.map Prod.fst else m.map Prod.fst ++ [k] := by
  induction m with
  | nil => simp [mapSet]
  | cons kv rest ih =>
    obtain ⟨k2, v2⟩ := kv
    by_cases hk : k2 = k
    · subst hk
      simp [mapSet]
    · have hk2 : ¬ k = k2 := fun h => hk h.symm
      simp only [mapSet, hk, if_false, List.map_cons, ih, List.mem_cons, hk2, false_or]
      split <;> simp

theorem mapSet_nodup (k : Str) (v : Edit) (m : List (Str × Edit))
    (hm : (m.map Prod.fst).Nodup) : ((mapSet k v m).map Prod.fst).Nodup := by
  rw [mapSet_keys]
  split
  · exact hm
  · rename_i hk
    exact List.Nodup.append hm (List.nodup_singleton k) (by simpa using hk)

theorem mem_mapSet (k : Str) (v : Edit) (m : List (Str × Edit))
    (hm : (m.map Prod.fst).Nodup) (a : Str) (b : Edit) :
    (a, b) ∈ mapSet k v m ↔ (a = k ∧ b = v) ∨ (a ≠ k ∧ (a, b) ∈ m) := by
  induction m with
  | nil => simp [mapSet]
  | cons kv rest ih =>
    obtain ⟨k2, v2⟩ := kv
    simp only [List.map_cons, List.nodup_cons] at hm
    by_cases hk : k2 = k
    · subst hk
      simp only [mapSet, if_true, List.mem_cons, Prod.mk.injEq]
      constructor
      · rintro (⟨rfl, rfl⟩ | hmem)
        · exact Or.inl ⟨rfl, rfl⟩
        · refine Or.inr ⟨?_, Or.inr hmem⟩
          rintro rfl
          exact hm.1 (List.mem_map_of_mem Prod.fst hmem)
      · rintro (⟨rfl, rfl⟩ | ⟨hne, h | h⟩)
        · exact Or.inl ⟨rfl, rfl⟩
        · exact absurd h.1 hne
        · exact Or.inr h
    · simp only [mapSet, hk, if_false, List.mem_cons, Prod.mk.injEq, ih hm.2]
      constructor
      · rintro (⟨rfl, rfl⟩ | ⟨rfl, rfl⟩ | ⟨hne, h⟩)
        · exact Or.inr ⟨hk, Or.inl ⟨rfl, rfl⟩⟩
        · exact Or.inl ⟨rfl, rfl⟩
        · exact Or.inr ⟨hne, Or.inr h⟩
      · rintro (⟨rfl, rfl⟩ | ⟨hne, ⟨rfl, rfl⟩ | h⟩)
        · exact Or.inr (Or.inl ⟨rfl, rfl⟩)
        · exact Or.inl ⟨rfl, rfl⟩
        · exact Or.inr (Or.inr ⟨hne, h⟩)

theorem lastFor_nil (p : Str) : lastFor p [] = none := rfl

theorem lastFor_cons (p : Str) (e : Edit) (es : List Edit) :
    lastFor p (e :: es) =
      if e.rel = p then (match lastFor p es with
        | some x => some x
        | none => some e) else lastFor p es := by
  unfold lastFor
  by_cases h : e.rel = p
  · simp only [h, decide_True, List.filter_cons_of_pos, if_true]
    cases hf : es.filter (fun e => decide (e.rel = p)) with
    | nil => simp
    | cons y ys =>
      simp only [List.getLast?_cons_cons]
      rw [List.getLast?_eq_getLast _ (List.cons_ne_nil y ys)]
  · simp [h]

theorem lastFor_mem (p : Str) (es : List Edit) (x : Edit) (h : lastFor p es = some x) :
    x ∈ es ∧ x.rel = p := by
  unfold lastFor at h
  have hx := List.mem_of_getLast?_eq_some h
  simpa using List.mem_filter.mp hx

theorem lastFor_append (p : Str) (hs ls : List Edit) (x : Edit)
    (h : lastFor p ls = some x) : lastFor p (hs ++ ls) = some x := by
  induction hs with
  | nil => simpa using h
  | cons e hs ih =>
    rw [List.cons_append, lastFor_cons, ih]
    split <;> rfl

/-- The state of the map `byRel` while the edits are inserted. -/
theorem foldl_mapSet_spec (es : List Edit) :
    ∀ m : List (Str × Edit), (m.map Prod.fst).Nodup → (∀ kv ∈ m, kv.2.rel = kv.1) →
      ((es.foldl (fun m e => mapSet e.rel e m) m).map Prod.fst).Nodup ∧
      (∀ kv ∈ es.foldl (fun m e => mapSet e.rel e m) m, kv.2.rel = kv.1) ∧
      ∀ a b, (a, b) ∈ es.foldl (fun m e => mapSet e.rel e m) m ↔
        (lastFor a es = some b ∨ (lastFor a es = none ∧ (a, b) ∈ m)) := by
  induction es with
  | nil =>
    intro m hm hc
    exact ⟨hm, hc, fun a b => by simp [lastFor_nil]⟩
  | cons e es ih =>
    intro m hm hc
    have hm2 := mapSet_nodup e.rel e m hm
    have hc2 : ∀ kv ∈ mapSet e.rel e m, kv.2.rel = kv.1 := by
      rintro ⟨a, b⟩ hab
      rcases (mem_mapSet e.rel e m hm a b).mp hab with ⟨rfl, rfl⟩ | ⟨-, hmem⟩
      · rfl
      · exact hc _ hmem
    obtain ⟨h1, h2, h3⟩ := ih (mapSet e.rel e m) hm2 hc2
    refine ⟨h1, h2, ?_⟩
    intro a b
    rw [List.foldl_cons, h3 a b, mem_mapSet e.rel e m hm a b, lastFor_cons]
    by_cases hr : e.rel = a
    · subst hr
      cases hl : lastFor e.rel es with
      | none => simp [eq_comm]
      | some x => simp
    · have hr2 : ¬ a = e.rel := fun h => hr h.symm
      simp [hr, hr2]

theorem mem_dedupeByRel (es : List Edit) (x : Edit) :
    x ∈ dedupeByRel es ↔ lastFor x.rel es = some x := by
  obtain ⟨-, h2, h3⟩ := foldl_mapSet_spec es [] (by simp) (by simp)
  unfold dedupeByRel
  constructor
  · intro hx
    obtain ⟨⟨a, b⟩, hab, rfl⟩ := List.mem_map.mp hx
    have ha : b.rel = a := h2 _ hab
    have := (h3 a b).mp hab
    simpa [ha] using this
  · intro hx
    exact List.mem_map.mpr ⟨(x.rel, x), (h3 x.rel x).mpr (Or.inl hx), rfl⟩

theorem dedupeByRel_nodup (es : List Edit) :
    ((dedupeByRel es).map (fun e => e.rel)).Nodup := by
  obtain ⟨h1, h2, -⟩ := foldl_mapSet_spec es [] (by simp) (by simp)
  unfold dedupeByRel
  rw [List.map_map]
  have : List.map ((fun e => e.rel) ∘ Prod.snd) (es.foldl (fun m e => mapSet e.rel e m) []) =
      List.map Prod.fst (es.foldl (fun m e => mapSet e.rel e m) []) :=
    List.map_congr_left (fun kv hkv => h2 kv hkv)
  rw [this]
  exact h1

theorem filter_rel_eq_singleton (l : List Edit) (x : Edit)
    (hn : (l.map (fun e => e.rel)).Nodup) (hx : x ∈ l) :
    l.filter (fun e => e.rel = x.rel) = [x] := by
  induction l with
  | nil => simp at hx
  | cons y ys ih =>
    simp only [List.map_cons, List.nodup_cons] at hn
    rcases List.mem_cons.mp hx with rfl | hmem
    · have : ys.filter (fun e => decide (e.rel = x.rel)) = [] := by
        rw [List.filter_eq_nil_iff]
        intro e he
        simp only [decide_eq_true_eq]
        intro h
        exact hn.1 (h ▸ List.mem_map_of_mem (fun e => e.rel) he)
      simp [this]
    · have hy : ¬ y.rel = x.rel := by
        intro h
        exact hn.1 (h ▸ List.mem_map_of_mem (fun e => e.rel) hmem)
      simp [hy, ih hn.2 hmem]

theorem heuristicEdits_changed (env : Env) (fs : List FileEntry) :
    ∀ hs, heuristicEdits env fs = some hs →
      ∀ e ∈ hs, e.after ≠ e.before ∧ e.source = .heuristics := by
  induction fs with
  | nil =>
    intro hs h e he
    simp only [heuristicEdits, Option.some.injEq] at h
    subst h
    simp at he
  | cons f more ih =>
    intro hs h
    unfold heuristicEdits at h
    split at h
    · simp at h
    · exact ih hs h
    · rename_i t _
      split at h
      · exact ih hs h
      · cases hrec : heuristicEdits env more with
        | none => simp [hrec] at h
        | some es =>
          simp only [hrec, Option.map_some', Option.some.injEq] at h
          subst h
          intro e he
          split at he
          · rcases List.mem_cons.mp he with rfl | he
            · rename_i hne
              exact ⟨hne, rfl⟩
            · exact ih es hrec e he
          · exact ih es hrec e he

theorem proposedEdits_changed (env : Env) (cwd : Str) (entries : List RawEntry) :
    ∀ e ∈ proposedEdits env cwd entries, e.after ≠ e.before ∧ e.source = .openai := by
  induction entries with
  | nil => simp [proposedEdits]
  | cons r more ih =>
    intro e he
    unfold proposedEdits at he
    split at he
    · simp at he
    · rename_i heq
      simp only [List.cons.injEq] at heq
      obtain ⟨-, rfl⟩ := heq
      split at he
      · exact ih e he
      · split at he
        · exact ih e he
        · rcases List.mem_cons.mp he with rfl | he
          · rename_i hne
            exact ⟨fun h => hne h.symm, rfl⟩
          · exact ih e he
    · rename_i heq
      simp only [List.cons.injEq] at heq
      obtain ⟨-, rfl⟩ := heq
      exact ih e he

theorem llmEdits_changed (env : Env) (cwd : Str) (ui : List FileEntry) :
    ∀ ls, llmEdits env cwd ui = some ls →
      ∀ e ∈ ls, e.after ≠ e.before ∧ e.source = .openai := by
  intro ls h
  unfold llmEdits at h
  split at h
  · unfold proposeEditsWithOpenAI at h
    split at h
    · simp only [Option.some.injEq] at h
      subst h
      simp
    · split at h
      · simp at h
      · split at h
        · simp only [Option.some.injEq] at h
          subst h
          simp
        · split at h <;> first
            | (simp at h; done)
            | (simp only [Option.some.injEq] at h
               subst h
               first
                 | (intro e he; simp at he)
                 | exact proposedEdits_changed env cwd _)
  · simp only [Option.some.injEq] at h
    subst h
    simp

theorem improveCodebase_finalEdits (env : Env) (root : Entry) (cwd : Str) (flags : Flags)
    (r : Improved) (h : improveCodebase env root cwd flags = some r) :
    ∃ hs ls, heuristicEdits env (uiFiles root cwd flags) = some hs ∧
      llmEdits env cwd (uiFiles root cwd flags) = some ls ∧
      r.finalEdits = dedupeByRel (hs ++ ls) ∧
      r.patch = buildUnifiedPatch env cwd r.finalEdits ∧
      r.changedFiles = (r.finalEdits.map (fun e => e.rel)).insertionSort
        (fun a b => strLe a b = true) := by
  unfold improveCodebase at h
  cases hh : heuristicEdits env (uiFiles root cwd flags) with
  | none => simp [hh] at h
  | some hs =>
    cases hl : llmEdits env cwd (uiFiles root cwd flags) with
    | none => simp [hh, hl] at h
    | some ls =>
      simp only [hh, hl, Option.some.injEq] at h
      subst h
      exact ⟨hs, ls, rfl, rfl, rfl, rfl, rfl⟩

theorem lastFor_of_unique (ls : List Edit) (x : Edit) (hx : x ∈ ls)
    (hu : ∀ y ∈ ls, y.rel = x.rel → y = x) : lastFor x.rel ls = some x := by
  unfold lastFor
  have hne : ls.filter (fun e => decide (e.rel = x.rel)) ≠ [] := by
    intro hnil
    have : x ∈ ls.filter (fun e => decide (e.rel = x.rel)) :=
      List.mem_filter.mpr ⟨hx, by simp⟩
    rw [hnil] at this
    simp at this
  rw [List.getLast?_eq_getLast _ hne]
  have hmem := List.getLast_mem hne
  have := List.mem_filter.mp hmem
  rw [hu _ this.1 (by simpa using this.2)]

/-- C2: the final edit set of `improveCodebase` holds at most one edit per relative
path; the edit that survives for a path is the last one the provider proposed for
it, so when a heuristic edit and the external edit target the same path, the one
final edit for that path is the external edit. -/
theorem final_edits_one_per_path_external_wins (env : Env) (root : Entry) (cwd : Str)
    (flags : Flags) (r : Improved) (h : improveCodebase env root cwd flags = some r) :
    (r.finalEdits.map (fun e => e.rel)).Nodup ∧
    ∀ hs ls, heuristicEdits env (uiFiles root cwd flags) = some hs →
      llmEdits env cwd (uiFiles root cwd flags) = some ls →
      (∀ x, lastFor x.rel ls = some x →
        r.finalEdits.filter (fun e => e.rel = x.rel) = [x]) ∧
      (∀ e ∈ hs, ∀ x ∈ ls, e.rel = x.rel → (∀ y ∈ ls, y.rel = x.rel → y = x) →
        r.finalEdits.filter (fun e => e.rel = x.rel) = [x]) := by
  obtain ⟨hs0, ls0, hh, hl, hfin, -, -⟩ := improveCodebase_finalEdits env root cwd flags r h
  have hnd : (r.finalEdits.map (fun e => e.rel)).Nodup := by
    rw [hfin]
    exact dedupeByRel_nodup _
  refine ⟨hnd, ?_⟩
  intro hs ls hhs hls
  rw [hh] at hhs
  rw [hl] at hls
  simp only [Option.some.injEq] at hhs hls
  subst hhs
  subst hls
  have key : ∀ x, lastFor x.rel ls0 = some x →
      r.finalEdits.filter (fun e => e.rel = x.rel) = [x] := by
    intro x hx
    apply filter_rel_eq_singleton _ _ hnd
    rw [hfin, mem_dedupeByRel]
    exact lastFor_append _ _ _ _ hx
  refine ⟨key, ?_⟩
  intro e _ x hx _ hu
  exact key x (lastFor_of_unique ls0 x hx hu)

set_option maxRecDepth 100000 in
theorem final_edits_one_per_path_external_wins_witness :
    improveCodebase (sampleEnv (some (u16 "sk-test"))) sampleTree (u16 "/repo") {} =
      some sampleImproved ∧
    (sampleImproved.finalEdits.map (fun e => e.rel)).Nodup ∧
    sampleImproved.finalEdits.filter (fun e => e.rel = sampleExternalA.rel) =
      [sampleExternalA] :=
  have hrun : improveCodebase (sampleEnv (some (u16 "sk-test"))) sampleTree (u16 "/repo") {} =
      some sampleImproved := by decide
  have hthm := final_edits_one_per_path_external_wins (sampleEnv (some (u16 "sk-test")))
    sampleTree (u16 "/repo") {} sampleImproved hrun
  ⟨hrun, hthm.1,
   (hthm.2 [sampleHeuristicB, sampleHeuristicA] [sampleExternalA] (by decide) (by decide)).2
     sampleHeuristicA (by decide) sampleExternalA (by decide) (by decide) (by decide)⟩

/-- C3: no edit of the final edit set of `improveCodebase` has an after-content equal
to its before-content, whatever the files hold and the provider proposes. -/
theorem final_edits_change_content (env : Env) (root : Entry) (cwd : Str)
    (flags : Flags) (r : Improved) (h : improveCodebase env root cwd flags = some r) :
    ∀ e ∈ r.finalEdits, e.after ≠ e.before := by
  obtain ⟨hs, ls, hh, hl, hfin, -, -⟩ := improveCodebase_finalEdits env root cwd flags r h
  intro e he
  rw [hfin, mem_dedupeByRel] at he
  have hmem := (lastFor_mem _ _ _ he).1
  rcases List.mem_append.mp hmem with h1 | h1
  · exact (heuristicEdits_changed env _ hs hh e h1).1
  · exact (llmEdits_changed env cwd _ ls hl e h1).1

set_option maxRecDepth 100000 in
theorem final_edits_change_content_witness :
    improveCodebase (sampleEnv none) sampleTree (u16 "/repo") {} = some sampleImprovedLocal ∧
    ∀ e ∈ sampleImprovedLocal.finalEdits, e.after ≠ e.before :=
  have hrun : improveCodebase (sampleEnv none) sampleTree (u16 "/repo") {} =
      some sampleImprovedLocal := by decide
  ⟨hrun, final_edits_change_content (sampleEnv none) sampleTree (u16 "/repo") {}
    sampleImprovedLocal hrun⟩

/-! ## Lines -/

theorem splitNL_ne_nil (s : Str) : splitNL s ≠ [] := by
  cases s with
  | nil => simp [splitNL]
  | cons c rest =>
    unfold splitNL
    split
    · simp
    · split <;> simp

theorem splitNL_cons_nl (rest : Str) : splitNL (10 :: rest) = [] :: splitNL rest := by
  simp [splitNL]

theorem splitNL_cons_of_ne (c : Nat) (rest : Str) (hc : c ≠ 10) :
    splitNL (c :: rest) = (c :: (splitNL rest).headD []) :: (splitNL rest).tail := by
  rw [splitNL]
  simp only [hc, if_false]
  cases h : splitNL rest with
  | nil => simp
  | cons l ls => simp

theorem joinNL_cons_of_ne_nil (l : Str) (ls : List Str) (h : ls ≠ []) :
    joinNL (l :: ls) = l ++ 10 :: joinNL ls := by
  cases ls with
  | nil => exact absurd rfl h
  | cons l2 ls => rfl

theorem joinNL_splitNL (s : Str) : joinNL (splitNL s) = s := by
  induction s with
  | nil => rfl
  | cons c rest ih =>
    by_cases hc : c = 10
    · subst hc
      rw [splitNL_cons_nl, joinNL_cons_of_ne_nil _ _ (splitNL_ne_nil rest), ih]
      rfl
    · rw [splitNL_cons_of_ne c rest hc]
      have hne := splitNL_ne_nil rest
      cases h : splitNL rest with
      | nil => exact absurd h hne
      | cons l ls =>
        rw [h] at ih
        cases ls with
        | nil =>
          simp only [List.headD_cons, List.tail_cons, joinNL] at ih ⊢
          rw [ih]
        | cons l2 ls =>
          simp only [List.headD_cons, List.tail_cons, joinNL] at ih ⊢
          rw [← ih]
          rfl

theorem splitNL_no_nl (s : Str) : ∀ l ∈ splitNL s, 10 ∉ l := by
  induction s with
  | nil => simp [splitNL]
  | cons c rest ih =>
    by_cases hc : c = 10
    · subst hc
      rw [splitNL_cons_nl]
      intro l hl
      rcases List.mem_cons.mp hl with rfl | hl
      · simp
      · exact ih l hl
    · rw [splitNL_cons_of_ne c rest hc]
      have hne := splitNL_ne_nil rest
      cases h : splitNL rest with
      | nil => exact absurd h hne
      | cons l0 ls =>
        rw [h] at ih
        intro l hl
        simp only [List.headD_cons, List.tail_cons] at hl
        rcases List.mem_cons.mp hl with rfl | hl
        · intro hmem
          rcases List.mem_cons.mp hmem with h2 | h2
          · exact hc h2.symm
          · exact ih l0 (List.mem_cons_self _ _) h2
        · exact ih l (List.mem_cons_of_mem _ hl)

theorem splitNL_length (s : Str) : (splitNL s).length = s.count 10 + 1 := by
  induction s with
  | nil => rfl
  | cons c rest ih =>
    by_cases hc : c = 10
    · subst hc
      rw [splitNL_cons_nl, List.length_cons, ih, List.count_cons_self]
    · rw [splitNL_cons_of_ne c rest hc, List.length_cons, List.length_tail, ih,
        List.count_cons_of_ne (fun h => hc h.symm)]
      simp

theorem splitNL_append_nl (x b : Str) : splitNL (x ++ 10 :: b) = splitNL x ++ splitNL b := by
  induction x with
  | nil => simp [splitNL]
  | cons c x ih =>
    by_cases hc : c = 10
    · subst hc
      rw [List.cons_append, splitNL_cons_nl, splitNL_cons_nl, ih]
      rfl
    · rw [List.cons_append, splitNL_cons_of_ne c _ hc, splitNL_cons_of_ne c x hc]
      have hne := splitNL_ne_nil x
      simp only [ih]
      cases h : splitNL x with
      | nil => exact absurd h hne
      | cons l ls => simp

theorem splitNL_of_no_nl (l : Str) (h : 10 ∉ l) : splitNL l = [l] := by
  induction l with
  | nil => rfl
  | cons c rest ih =>
    have hc : c ≠ 10 := fun hc => h (by simp [hc])
    have hrest : 10 ∉ rest := fun hmem => h (List.mem_cons_of_mem _ hmem)
    rw [splitNL_cons_of_ne c rest hc]
    simp [ih hrest]

theorem splitNL_joinNL (lines : List Str) (hne : lines ≠ []) (h : ∀ l ∈ lines, 10 ∉ l) :
    splitNL (joinNL lines) = lines := by
  induction lines with
  | nil => exact absurd rfl hne
  | cons l ls ih =>
    cases ls with
    | nil => simpa [joinNL] using splitNL_of_no_nl l (h l (by simp))
    | cons l2 ls =>
      rw [joinNL_cons_of_ne_nil _ _ (by simp), splitNL_append_nl,
        splitNL_of_no_nl l (h l (by simp)),
        ih (by simp) (fun x hx => h x (List.mem_cons_of_mem _ hx))]
      rfl

theorem joinNL_append (a b : List Str) (ha : a ≠ []) (hb : b ≠ []) :
    joinNL (a ++ b) = joinNL a ++ 10 :: joinNL b := by
  induction a with
  | nil => exact absurd rfl ha
  | cons l ls ih =>
    cases ls with
    | nil =>
      rw [List.singleton_append, joinNL_cons_of_ne_nil _ _ hb]
      rfl
    | cons l2 ls =>
      show l ++ 10 :: joinNL (l2 :: ls ++ b) = (l ++ 10 :: joinNL (l2 :: ls)) ++ 10 :: joinNL b
      rw [ih (by simp)]
      simp

theorem splitNL_joinNL_append (a b : List Str) (ha : a ≠ []) (hb : ∀ l ∈ b, 10 ∉ l) :
    splitNL (joinNL (a ++ b)) = splitNL (joinNL a) ++ b := by
  cases b with
  | nil => simp
  | cons l ls =>
    rw [joinNL_append a _ ha (by simp), splitNL_append_nl, splitNL_joinNL _ (by simp) hb]

/-! ## Patch synthesis -/

theorem digitChar_ne_nl : ∀ k, k < 10 → (Nat.digitChar k).toNat ≠ 10 := by
  decide

theorem toDigitsCore_no_nl (fuel : Nat) :
    ∀ (n : Nat) (ds : List Char), (∀ c ∈ ds, c.toNat ≠ 10) →
      ∀ c ∈ Nat.toDigitsCore 10 fuel n ds, c.toNat ≠ 10 := by
  induction fuel with
  | zero =>
    intro n ds hds c hc
    simp only [Nat.toDigitsCore] at hc
    exact hds c hc
  | succ fuel ih =>
    intro n ds hds c hc
    simp only [Nat.toDigitsCore] at hc
    have hds2 : ∀ c ∈ Nat.digitChar (n % 10) :: ds, c.toNat ≠ 10 := by
      intro d hd
      rcases List.mem_cons.mp hd with rfl | hd
      · exact digitChar_ne_nl _ (Nat.mod_lt _ (by decide))
      · exact hds d hd
    split at hc
    · exact hds2 c hc
    · exact ih _ _ hds2 c hc

theorem decimal_no_nl (n : Nat) : 10 ∉ decimal n := by
  unfold decimal Nat.toDigits
  intro h
  obtain ⟨c, hc, hc10⟩ := List.mem_map.mp h
  exact toDigitsCore_no_nl _ _ [] (by simp) c hc hc10

theorem hexDigit_ne_nl (d : Nat) : hexDigit d ≠ 10 := by
  unfold hexDigit
  split <;> omega

theorem hexOf_no_nl (bs : List Nat) : 10 ∉ hexOf bs := by
  induction bs with
  | nil => simp [hexOf]
  | cons b rest ih =>
    simp only [hexOf, List.mem_cons, not_or]
    exact ⟨fun h => hexDigit_ne_nl _ h.symm, fun h => hexDigit_ne_nl _ h.symm, ih⟩

theorem shortHash_no_nl (env : Env) (s : Str) : 10 ∉ shortHash env s := by
  unfold shortHash
  intro h
  exact hexOf_no_nl _ (List.mem_of_mem_take h)

theorem not_mem_append_of {a b : Str} (ha : 10 ∉ a) (hb : 10 ∉ b) : 10 ∉ a ++ b := by
  simp [ha, hb]

theorem editLines_no_nl (env : Env) (e : Edit) (hrel : 10 ∉ e.rel) :
    ∀ l ∈ editLines env e, 10 ∉ l := by
  intro l hl
  unfold editLines at hl
  simp only [List.mem_append, List.mem_cons, List.mem_map, List.not_mem_nil, or_false,
    List.mem_singleton] at hl
  have hh1 := shortHash_no_nl env e.before
  have hh2 := shortHash_no_nl env e.after
  have hd1 := decimal_no_nl (splitNL e.before).length
  have hd2 := decimal_no_nl (splitNL e.after).length
  have c1 : 10 ∉ u16 "diff --git a/" := by decide
  have c2 : 10 ∉ u16 " b/" := by decide
  have c3 : 10 ∉ u16 "index " := by decide
  have c4 : 10 ∉ u16 ".." := by decide
  have c5 : 10 ∉ u16 " 100644" := by decide
  have c6 : 10 ∉ u16 "--- a/" := by decide
  have c7 : 10 ∉ u16 "+++ b/" := by decide
  have c8 : 10 ∉ u16 "@@ -1," := by decide
  have c9 : 10 ∉ u16 " +1," := by decide
  have c10 : 10 ∉ u16 " @@" := by decide
  rcases hl with ((((rfl | rfl | rfl | rfl | rfl) | ⟨a, ha, rfl⟩) | ⟨a, ha, rfl⟩) | rfl)
  · exact not_mem_append_of (not_mem_append_of (not_mem_append_of c1 hrel) c2) hrel
  · exact not_mem_append_of (not_mem_append_of (not_mem_append_of (not_mem_append_of c3 hh1) c4) hh2) c5
  · exact not_mem_append_of c6 hrel
  · exact not_mem_append_of c7 hrel
  · exact not_mem_append_of (not_mem_append_of (not_mem_append_of (not_mem_append_of c8 hd1) c9) hd2) c10
  · have := splitNL_no_nl e.before a ha
    simpa using this
  · have := splitNL_no_nl e.after a ha
    simpa using this
  · simp

theorem foldl_editLines (env : Env) (edits : List Edit) :
    ∀ init : List Str, edits.foldl (fun lines e => lines ++ editLines env e) init =
      init ++ edits.flatMap (editLines env) := by
  induction edits with
  | nil => intro init; simp
  | cons e es ih => intro init; simp [ih]

theorem splitNL_buildUnifiedPatch (env : Env) (cwd : Str) (edits : List Edit)
    (hrel : ∀ e ∈ edits, 10 ∉ e.rel) :
    splitNL (buildUnifiedPatch env cwd edits) =
      splitNL (joinNL [u16 "# DesignV1 patch", u16 "# Root: " ++ cwd,
        u16 "# Generated: " ++ env.now, []]) ++ edits.flatMap (editLines env) ++ [[]] := by
  unfold buildUnifiedPatch patchLines
  rw [foldl_editLines, splitNL_append_nl, splitNL_joinNL_append _ _ (by simp)]
  · rfl
  · intro l hl
    obtain ⟨e, he, hle⟩ := List.mem_flatMap.mp hl
    exact editLines_no_nl env e (hrel e he) l hle

theorem map_tail_map_cons (c : Nat) (ls : List Str) :
    (ls.map (fun l => c :: l)).map List.tail = ls := by
  induction ls with
  | nil => rfl
  | cons l ls ih =>
    simp only [List.map_cons, List.tail_cons, List.cons.injEq, true_and]
    exact ih

/-- C5: for edits whose paths hold no line break, the lines of the patch document are
the preamble followed, for each edit in turn, by the four header lines, the one hunk
header `@@ -1,m +1,n @@` with `m` and `n` the numbers of lines of the before- and
after-content, the `m` before lines each behind `-`, the `n` after lines each behind
`+`, and an empty line; taking the prefixes off and joining the lines gives back the
before- and after-content. -/
theorem patch_has_one_full_replacement_hunk_per_edit (env : Env) (cwd : Str)
    (edits : List Edit) (hrel : ∀ e ∈ edits, 10 ∉ e.rel) :
    splitNL (buildUnifiedPatch env cwd edits) =
      splitNL (u16 "# DesignV1 patch\n# Root: " ++ cwd ++ u16 "\n# Generated: " ++ env.now ++
        u16 "\n") ++
      edits.flatMap (fun e =>
        [u16 "diff --git a/" ++ e.rel ++ u16 " b/" ++ e.rel,
         u16 "index " ++ shortHash env e.before ++ u16 ".." ++ shortHash env e.after ++
           u16 " 100644",
         u16 "--- a/" ++ e.rel,
         u16 "+++ b/" ++ e.rel,
         u16 "@@ -1," ++ decimal (e.before.count 10 + 1) ++ u16 " +1," ++
           decimal (e.after.count 10 + 1) ++ u16 " @@"] ++
        (splitNL e.before).map (fun l => 45 :: l) ++
        (splitNL e.after).map (fun l => 43 :: l) ++ [[]]) ++ [[]] ∧
    ∀ e ∈ edits,
      (splitNL e.before).length = e.before.count 10 + 1 ∧
      (splitNL e.after).length = e.after.count 10 + 1 ∧
      (∀ l ∈ splitNL e.before, 10 ∉ l) ∧ (∀ l ∈ splitNL e.after, 10 ∉ l) ∧
      joinNL (((splitNL e.before).map (fun l => 45 :: l)).map List.tail) = e.before ∧
      joinNL (((splitNL e.after).map (fun l => 43 :: l)).map List.tail) = e.after := by
  constructor
  · rw [splitNL_buildUnifiedPatch env cwd edits hrel]
    have hpre : joinNL [u16 "# DesignV1 patch", u16 "# Root: " ++ cwd,
        u16 "# Generated: " ++ env.now, []] =
        u16 "# DesignV1 patch\n# Root: " ++ cwd ++ u16 "\n# Generated: " ++ env.now ++
          u16 "\n" := by
      have e1 : u16 "# DesignV1 patch\n# Root: " = u16 "# DesignV1 patch" ++ 10 :: u16 "# Root: " := by
        decide
      have e2 : u16 "\n# Generated: " = 10 :: u16 "# Generated: " := by decide
      have e3 : u16 "\n" = [10] := by decide
      rw [e1, e2, e3]
      simp [joinNL]
    rw [hpre]
    have hfun : editLines env = (fun e =>
        [u16 "diff --git a/" ++ e.rel ++ u16 " b/" ++ e.rel,
         u16 "index " ++ shortHash env e.before ++ u16 ".." ++ shortHash env e.after ++
           u16 " 100644",
         u16 "--- a/" ++ e.rel,
         u16 "+++ b/" ++ e.rel,
         u16 "@@ -1," ++ decimal (e.before.count 10 + 1) ++ u16 " +1," ++
           decimal (e.after.count 10 + 1) ++ u16 " @@"] ++
        (splitNL e.before).map (fun l => 45 :: l) ++
        (splitNL e.after).map (fun l => 43 :: l) ++ [[]]) := by
      funext e
      unfold editLines
      rw [splitNL_length, splitNL_length]
    rw [hfun]
  · intro e _
    refine ⟨splitNL_length _, splitNL_length _, splitNL_no_nl _, splitNL_no_nl _, ?_, ?_⟩
    · rw [map_tail_map_cons, joinNL_splitNL]
    · rw [map_tail_map_cons, joinNL_splitNL]

set_option maxRecDepth 100000 in
theorem patch_has_one_full_replacement_hunk_per_edit_witness :
    (∀ e ∈ [sampleHeuristicB, sampleExternalA], 10 ∉ e.rel) ∧
    splitNL (buildUnifiedPatch (sampleEnv none) (u16 "/repo") [sampleHeuristicB, sampleExternalA]) =
      [u16 "# DesignV1 patch", u16 "# Root: /repo", u16 "# Generated: 2025-01-01T00:00:00.000Z",
       u16 "",
       u16 "diff --git a/src/b.tsx b/src/b.tsx", u16 "index 0ec45aa..0da45aa 100644",
       u16 "--- a/src/b.tsx", u16 "+++ b/src/b.tsx", u16 "@@ -1,2 +1,2 @@",
       u16 "-const b = 2; ", u16 "-", u16 "+const b = 2;", u16 "+", u16 "",
       u16 "diff --git a/src/a.tsx b/src/a.tsx", u16 "index 0ec25aa..0da45aa 100644",
       u16 "--- a/src/a.tsx", u16 "+++ b/src/a.tsx", u16 "@@ -1,2 +1,2 @@",
       u16 "-const a = 1; ", u16 "-", u16 "+const a = 3;", u16 "+", u16 "",
       u16 ""] :=
  ⟨by decide,
   ((patch_has_one_full_replacement_hunk_per_edit (sampleEnv none) (u16 "/repo")
      [sampleHeuristicB, sampleExternalA] (by decide)).1).trans (by decide)⟩

theorem startsWith_diff_of_head_ne (l : Str) (h : l.head? ≠ some 100) :
    startsWith l (u16 "diff --git ") = false := by
  have hd : u16 "diff --git " = 100 :: u16 "iff --git " := by decide
  rw [hd]
  unfold startsWith
  cases l with
  | nil => simp [afterLit]
  | cons c rest =>
    have hc : c ≠ 100 := fun hc => h (by simp [hc])
    simp [afterLit, hc]

theorem afterLit_append (pre rest : Str) : afterLit pre (pre ++ rest) = some rest := by
  induction pre with
  | nil => rfl
  | cons c pre ih => simp [afterLit, ih]

theorem startsWith_diff_header (rel : Str) :
    startsWith (u16 "diff --git a/" ++ rel ++ u16 " b/" ++ rel) (u16 "diff --git ") = true := by
  have hd : u16 "diff --git a/" = u16 "diff --git " ++ u16 "a/" := by decide
  unfold startsWith
  rw [hd, List.append_assoc, List.append_assoc, List.append_assoc, afterLit_append]
  rfl

theorem filter_editLines (env : Env) (e : Edit) :
    (editLines env e).filter (fun l => startsWith l (u16 "diff --git ")) =
      [u16 "diff --git a/" ++ e.rel ++ u16 " b/" ++ e.rel] := by
  have h2 : startsWith (u16 "index " ++ shortHash env e.before ++ u16 ".." ++
      shortHash env e.after ++ u16 " 100644") (u16 "diff --git ") = false := by
    apply startsWith_diff_of_head_ne
    have : u16 "index " = 105 :: u16 "ndex " := by decide
    rw [this]
    simp
  have h3 : startsWith (u16 "--- a/" ++ e.rel) (u16 "diff --git ") = false := by
    apply startsWith_diff_of_head_ne
    have : u16 "--- a/" = 45 :: u16 "-- a/" := by decide
    rw [this]
    simp
  have h4 : startsWith (u16 "+++ b/" ++ e.rel) (u16 "diff --git ") = false := by
    apply startsWith_diff_of_head_ne
    have : u16 "+++ b/" = 43 :: u16 "++ b/" := by decide
    rw [this]
    simp
  have h5 : startsWith (u16 "@@ -1," ++ decimal (splitNL e.before).length ++ u16 " +1," ++
      decimal (splitNL e.after).length ++ u16 " @@") (u16 "diff --git ") = false := by
    apply startsWith_diff_of_head_ne
    have : u16 "@@ -1," = 64 :: u16 "@ -1," := by decide
    rw [this]
    simp
  have h6 : ∀ ls : List Str, (ls.map (fun l => 45 :: l)).filter
      (fun l => startsWith l (u16 "diff --git ")) = [] := by
    intro ls
    rw [List.filter_eq_nil_iff]
    intro l hl
    obtain ⟨a, -, rfl⟩ := List.mem_map.mp hl
    simp [startsWith_diff_of_head_ne (45 :: a) (by simp)]
  have h7 : ∀ ls : List Str, (ls.map (fun l => 43 :: l)).filter
      (fun l => startsWith l (u16 "diff --git ")) = [] := by
    intro ls
    rw [List.filter_eq_nil_iff]
    intro l hl
    obtain ⟨a, -, rfl⟩ := List.mem_map.mp hl
    simp [startsWith_diff_of_head_ne (43 :: a) (by simp)]
  have h8 : startsWith [] (u16 "diff --git ") = false :=
    startsWith_diff_of_head_ne [] (by simp)
  unfold editLines
  rw [List.filter_append, List.filter_append, List.filter_append, h6, h7]
  simp only [List.filter_cons, List.filter_nil, startsWith_diff_header, h2, h3, h4, h5, h8,
    if_true, if_false, List.append_nil, Bool.false_eq_true]

theorem filter_flatMap_editLines (env : Env) (edits : List Edit) :
    (edits.flatMap (editLines env)).filter (fun l => startsWith l (u16 "diff --git ")) =
      edits.map (fun e => u16 "diff --git a/" ++ e.rel ++ u16 " b/" ++ e.rel) := by
  induction edits with
  | nil => rfl
  | cons e es ih =>
    rw [List.flatMap_cons, List.filter_append, filter_editLines, ih]
    rfl

theorem sectionHeaders_buildUnifiedPatch (env : Env) (cwd : Str) (edits : List Edit)
    (hcwd : 10 ∉ cwd) (hnow : 10 ∉ env.now) (hrel : ∀ e ∈ edits, 10 ∉ e.rel) :
    sectionHeaders (buildUnifiedPatch env cwd edits) =
      edits.map (fun e => u16 "diff --git a/" ++ e.rel ++ u16 " b/" ++ e.rel) := by
  unfold sectionHeaders
  rw [splitNL_buildUnifiedPatch env cwd edits hrel, splitNL_joinNL _ (by simp)]
  · rw [List.filter_append, List.filter_append, filter_flatMap_editLines]
    have p1 : startsWith (u16 "# DesignV1 patch") (u16 "diff --git ") = false := by decide
    have p2 : startsWith (u16 "# Root: " ++ cwd) (u16 "diff --git ") = false := by
      apply startsWith_diff_of_head_ne
      have : u16 "# Root: " = 35 :: u16 " Root: " := by decide
      rw [this]
      simp
    have p3 : startsWith (u16 "# Generated: " ++ env.now) (u16 "diff --git ") = false := by
      apply startsWith_diff_of_head_ne
      have : u16 "# Generated: " = 35 :: u16 " Generated: " := by decide
      rw [this]
      simp
    have p4 : startsWith [] (u16 "diff --git ") = false :=
      startsWith_diff_of_head_ne [] (by simp)
    simp only [List.filter_cons, List.filter_nil, p1, p2, p3, p4, if_false, List.nil_append,
      List.append_nil, Bool.false_eq_true]
  · intro l hl
    have c1 : 10 ∉ u16 "# DesignV1 patch" := by decide
    have c2 : 10 ∉ u16 "# Root: " := by decide
    have c3 : 10 ∉ u16 "# Generated: " := by decide
    simp only [List.mem_cons, List.mem_singleton, List.not_mem_nil, or_false] at hl
    rcases hl with rfl | rfl | rfl | rfl
    · exact c1
    · exact not_mem_append_of c2 hcwd
    · exact not_mem_append_of c3 hnow
    · simp

theorem foldl_keys (es : List Edit) :
    ∀ m : List (Str × Edit),
      (es.foldl (fun m e => mapSet e.rel e m) m).map Prod.fst =
        es.foldl (fun ks e => if e.rel ∈ ks then ks else ks ++ [e.rel]) (m.map Prod.fst) := by
  induction es with
  | nil => intro m; rfl
  | cons e es ih =>
    intro m
    rw [List.foldl_cons, ih, mapSet_keys, List.foldl_cons]

theorem foldl_firstOccurrences (es : List Edit) :
    ∀ acc : List Str,
      es.foldl (fun ks e => if e.rel ∈ ks then ks else ks ++ [e.rel]) acc =
        acc ++ (firstOccurrences (es.map (fun e => e.rel))).filter (fun x => x ∉ acc) := by
  induction es with
  | nil => intro acc; simp [firstOccurrences]
  | cons e es ih =>
    intro acc
    rw [List.foldl_cons, ih]
    simp only [List.map_cons, firstOccurrences]
    by_cases hk : e.rel ∈ acc
    · simp only [hk, if_true, List.filter_cons, not_true_eq_false, decide_False,
        List.filter_filter]
      congr 1
      apply List.filter_congr
      intro x _
      by_cases hx : x ∈ acc
      · simp [hx]
      · have : x ≠ e.rel := fun h => hx (h ▸ hk)
        simp [hx, this]
    · simp only [hk, if_false, List.filter_cons, not_false_eq_true, decide_True, if_true,
        List.filter_filter, List.append_assoc, List.singleton_append]
      congr 2
      apply List.filter_congr
      intro x _
      by_cases hx : x ∈ acc
      · simp [hx]
      · by_cases hx2 : x = e.rel
        · simp [hx2]
        · simp [hx, hx2]

theorem dedupeByRel_order (es : List Edit) :
    (dedupeByRel es).map (fun e => e.rel) = firstOccurrences (es.map (fun e => e.rel)) := by
  obtain ⟨-, h2, -⟩ := foldl_mapSet_spec es [] (by simp) (by simp)
  unfold dedupeByRel
  rw [List.map_map]
  have : List.map ((fun e => e.rel) ∘ Prod.snd) (es.foldl (fun m e => mapSet e.rel e m) []) =
      List.map Prod.fst (es.foldl (fun m e => mapSet e.rel e m) []) :=
    List.map_congr_left (fun kv hkv => h2 kv hkv)
  rw [this, foldl_keys, foldl_firstOccurrences]
  simp

theorem strLe_total (a : Str) : ∀ b : Str, strLe a b = true ∨ strLe b a = true := by
  induction a with
  | nil => intro b; exact Or.inl (by simp [strLe])
  | cons x xs ih =>
    intro b
    cases b with
    | nil => exact Or.inr (by simp [strLe])
    | cons y ys =>
      simp only [strLe, Bool.or_eq_true, decide_eq_true_eq, Bool.and_eq_true, beq_iff_eq]
      rcases Nat.lt_trichotomy x y with hlt | heq | hgt
      · exact Or.inl (Or.inl hlt)
      · rcases ih ys with h | h
        · exact Or.inl (Or.inr ⟨heq, h⟩)
        · exact Or.inr (Or.inr ⟨heq.symm, h⟩)
      · exact Or.inr (Or.inl hgt)

theorem strLe_trans (a : Str) :
    ∀ b c : Str, strLe a b = true → strLe b c = true → strLe a c = true := by
  induction a with
  | nil => intro b c _ _; simp [strLe]
  | cons x xs ih =>
    intro b c hab hbc
    cases b with
    | nil => simp [strLe] at hab
    | cons y ys =>
      cases c with
      | nil => simp [strLe] at hbc
      | cons z zs =>
        simp only [strLe, Bool.or_eq_true, decide_eq_true_eq, Bool.and_eq_true,
          beq_iff_eq] at hab hbc ⊢
        rcases hab with hxy | ⟨hxy, h1⟩
        · rcases hbc with hyz | ⟨hyz, -⟩
          · exact Or.inl (Nat.lt_trans hxy hyz)
          · exact Or.inl (hyz ▸ hxy)
        · rcases hbc with hyz | ⟨hyz, h2⟩
          · exact Or.inl (hxy ▸ hyz)
          · exact Or.inr ⟨hxy.trans hyz, ih ys zs h1 h2⟩

set_option maxRecDepth 100000 in
/-- C4, as stated, fails: when the walk yields `src/b.tsx` before `src/a.tsx`, the
section of `src/b.tsx` comes first in the patch although `src/a.tsx` sorts before
it; only the list of changed paths is sorted. -/
theorem patch_sections_not_alphabetical :
    improveCodebase (sampleEnv none) sampleTree (u16 "/repo") {} = some sampleImprovedLocal ∧
    sectionHeaders sampleImprovedLocal.patch =
      [u16 "diff --git a/src/b.tsx b/src/b.tsx", u16 "diff --git a/src/a.tsx b/src/a.tsx"] ∧
    sampleImprovedLocal.finalEdits.map (fun e => e.rel) = [u16 "src/b.tsx", u16 "src/a.tsx"] ∧
    ¬ List.Pairwise (fun a b => strLe a b = true)
      (sampleImprovedLocal.finalEdits.map (fun e => e.rel)) ∧
    sampleImprovedLocal.changedFiles = [u16 "src/a.tsx", u16 "src/b.tsx"] := by
  refine ⟨by decide, by decide, by decide, by decide, by decide⟩

/-- C4, amended: for a root path, a time stamp and final edit paths without line
breaks, the section headers of the patch document are those of the final edits in
the order of the final edit list, which is the order in which the paths were first
inserted into the map (heuristic edits in discovery order, then the paths only the
provider proposed); the list of changed paths holds the same paths in ascending
order. -/
theorem patch_sections_follow_final_edit_order (env : Env) (root : Entry) (cwd : Str)
    (flags : Flags) (r : Improved) (h : improveCodebase env root cwd flags = some r)
    (hcwd : 10 ∉ cwd) (hnow : 10 ∉ env.now) (hrel : ∀ e ∈ r.finalEdits, 10 ∉ e.rel) :
    sectionHeaders r.patch =
      r.finalEdits.map (fun e => u16 "diff --git a/" ++ e.rel ++ u16 " b/" ++ e.rel) ∧
    (∀ hs ls, heuristicEdits env (uiFiles root cwd flags) = some hs →
      llmEdits env cwd (uiFiles root cwd flags) = some ls →
      r.finalEdits.map (fun e => e.rel) = firstOccurrences ((hs ++ ls).map (fun e => e.rel))) ∧
    List.Sorted (fun a b => strLe a b = true) r.changedFiles ∧
    List.Perm r.changedFiles (r.finalEdits.map (fun e => e.rel)) := by
  obtain ⟨hs0, ls0, hh, hl, hfin, hpatch, hchanged⟩ :=
    improveCodebase_finalEdits env root cwd flags r h
  refine ⟨?_, ?_, ?_, ?_⟩
  · rw [hpatch]
    exact sectionHeaders_buildUnifiedPatch env cwd r.finalEdits hcwd hnow hrel
  · intro hs ls hhs hls
    rw [hh] at hhs
    rw [hl] at hls
    simp only [Option.some.injEq] at hhs hls
    subst hhs
    subst hls
    rw [hfin]
    exact dedupeByRel_order _
  · rw [hchanged]
    exact @List.sorted_insertionSort _ (fun a b => strLe a b = true) _ ⟨strLe_total⟩
      ⟨fun a b c => strLe_trans a b c⟩ _
  · rw [hchanged]
    exact List.perm_insertionSort _ _

set_option maxRecDepth 100000 in
theorem patch_sections_follow_final_edit_order_witness :
    improveCodebase (sampleEnv (some (u16 "sk-test"))) sampleTree (u16 "/repo") {} =
      some sampleImproved ∧
    10 ∉ u16 "/repo" ∧ 10 ∉ (sampleEnv (some (u16 "sk-test"))).now ∧
    (∀ e ∈ sampleImproved.finalEdits, 10 ∉ e.rel) ∧
    sectionHeaders sampleImproved.patch =
      sampleImproved.finalEdits.map
        (fun e => u16 "diff --git a/" ++ e.rel ++ u16 " b/" ++ e.rel) :=
  have hrun : improveCodebase (sampleEnv (some (u16 "sk-test"))) sampleTree (u16 "/repo") {} =
      some sampleImproved := by decide
  ⟨hrun, by decide, by decide, by decide,
   (patch_sections_follow_final_edit_order (sampleEnv (some (u16 "sk-test"))) sampleTree
     (u16 "/repo") {} sampleImproved hrun (by decide) (by decide) (by decide)).1⟩

/-! ## The directory walk -/

theorem mem_yieldedFiles (dir : Str) (es : List (Str × Entry)) (f : Str) :
    f ∈ yieldedFiles dir es ↔ ∃ name, (name, Entry.file) ∈ es ∧ f = childRel dir name := by
  induction es with
  | nil => simp [yieldedFiles]
  | cons ne rest ih =>
    obtain ⟨n, e⟩ := ne
    cases e with
    | file =>
      simp only [yieldedFiles, List.mem_cons, ih, Prod.mk.injEq, and_true]
      constructor
      · rintro (rfl | ⟨name, hm, rfl⟩)
        · exact ⟨n, Or.inl rfl, rfl⟩
        · exact ⟨name, Or.inr hm, rfl⟩
      · rintro ⟨name, (rfl | hm), rfl⟩
        · exact Or.inl rfl
        · exact Or.inr ⟨name, hm, rfl⟩
    | other =>
      simp only [yieldedFiles, List.mem_cons, ih, Prod.mk.injEq, reduceCtorEq, and_false,
        false_or]
    | dir r es2 =>
      simp only [yieldedFiles, List.mem_cons, ih, Prod.mk.injEq, reduceCtorEq, and_false,
        false_or]

theorem mem_pushedDirs (dir : Str) (es : List (Str × Entry)) (d : Str) (e : Entry) :
    (d, e) ∈ pushedDirs dir es ↔
      ∃ name r es2, (name, Entry.dir r es2) ∈ es ∧ d = childRel dir name ∧ e = .dir r es2 := by
  induction es with
  | nil => simp [pushedDirs]
  | cons ne rest ih =>
    obtain ⟨n, e0⟩ := ne
    cases e0 with
    | file =>
      simp only [pushedDirs, List.mem_cons, ih, Prod.mk.injEq, reduceCtorEq, and_false,
        false_or]
    | other =>
      simp only [pushedDirs, List.mem_cons, ih, Prod.mk.injEq, reduceCtorEq, and_false,
        false_or]
    | dir r0 es0 =>
      simp only [pushedDirs, List.mem_cons, ih, Prod.mk.injEq, Entry.dir.injEq]
      constructor
      · rintro (⟨rfl, rfl⟩ | ⟨name, r, es2, hm, rfl, rfl⟩)
        · exact ⟨n, r0, es0, Or.inl ⟨rfl, rfl, rfl⟩, rfl, rfl⟩
        · exact ⟨name, r, es2, Or.inr hm, rfl, rfl⟩
      · rintro ⟨name, r, es2, (⟨rfl, rfl, rfl⟩ | hm), rfl, rfl⟩
        · exact Or.inl ⟨rfl, rfl⟩
        · exact Or.inr ⟨name, r, es2, hm, rfl, rfl⟩

theorem visits_pos (e : Entry) : 1 ≤ e.visits := by
  cases e with
  | file => simp [Entry.visits]
  | other => simp [Entry.visits]
  | dir r es => simp [Entry.visits, Entry.dirCount]

theorem visits_pushedDirs (dir : Str) (es : List (Str × Entry)) :
    ((pushedDirs dir es).map (fun q => q.2.visits)).sum = dirCountList es := by
  induction es with
  | nil => simp [pushedDirs, dirCountList]
  | cons ne rest ih =>
    obtain ⟨n, e0⟩ := ne
    cases e0 with
    | file => simp only [pushedDirs, dirCountList, Entry.dirCount, ih, Nat.zero_add]
    | other => simp only [pushedDirs, dirCountList, Entry.dirCount, ih, Nat.zero_add]
    | dir r0 es0 =>
      simp only [pushedDirs, dirCountList, List.map_cons, List.sum_cons, ih]
      rfl

theorem fileAt_readable_iff (e : Entry) (names : List Str) :
    FileAt true e names ↔
      ∃ es, e = .dir true es ∧
        ((∃ name, names = [name] ∧ (name, Entry.file) ∈ es) ∨
         (∃ name child ns, names = name :: ns ∧ (name, child) ∈ es ∧ FileAt true child ns)) := by
  constructor
  · intro h
    cases h with
    | file hr hm =>
      have := hr rfl
      subst this
      exact ⟨_, rfl, Or.inl ⟨_, rfl, hm⟩⟩
    | step hr hm hc =>
      have := hr rfl
      subst this
      exact ⟨_, rfl, Or.inr ⟨_, _, _, rfl, hm, hc⟩⟩
  · rintro ⟨es, rfl, (⟨name, rfl, hm⟩ | ⟨name, child, ns, rfl, hm, hc⟩)⟩
    · exact FileAt.file (fun _ => rfl) hm
    · exact FileAt.step (fun _ => rfl) hm hc

theorem not_fileAt_of_readdir_none (e : Entry) (h : readdir e = none) (names : List Str) :
    ¬ FileAt true e names := by
  intro hf
  obtain ⟨es, rfl, -⟩ := (fileAt_readable_iff e names).mp hf
  simp [readdir] at h

theorem eq_dir_of_readdir (e : Entry) (es : List (Str × Entry)) (h : readdir e = some es) :
    e = .dir true es := by
  cases e with
  | file => simp [readdir] at h
  | other => simp [readdir] at h
  | dir r es2 =>
    cases r with
    | false => simp [readdir] at h
    | true =>
      simp only [readdir, Option.some.injEq] at h
      rw [h]

theorem relPath_singleton (dir name : Str) : relPath dir [name] = childRel dir name := rfl

theorem mem_walkLoop (fuel : Nat) :
    ∀ queue : List (Str × Entry), (queue.map (fun q => q.2.visits)).sum ≤ fuel →
      ∀ f, f ∈ walkLoop fuel queue ↔
        ∃ d e names, (d, e) ∈ queue ∧ FileAt true e names ∧ f = relPath d names := by
  induction fuel with
  | zero =>
    intro queue hsum f
    cases queue with
    | nil => simp [walkLoop]
    | cons q qs =>
      have := visits_pos q.2
      simp only [List.map_cons, List.sum_cons] at hsum
      omega
  | succ fuel ih =>
    intro queue hsum f
    rcases List.eq_nil_or_concat queue with rfl | ⟨L, ⟨dir, e⟩, rfl⟩
    · simp [walkLoop]
    · rw [List.concat_eq_append] at hsum ⊢
      simp only [List.map_append, List.sum_append, List.map_cons, List.map_nil, List.sum_cons,
        List.sum_nil, Nat.add_zero] at hsum
      have hpos := visits_pos e
      simp only [walkLoop, List.getLast?_concat, List.dropLast_concat]
      cases hr : readdir e with
      | none =>
        simp only []
        rw [ih L (by omega) f]
        constructor
        · rintro ⟨d, e2, names, hm, hf, rfl⟩
          exact ⟨d, e2, names, List.mem_append_left _ hm, hf, rfl⟩
        · rintro ⟨d, e2, names, hm, hf, rfl⟩
          rcases List.mem_append.mp hm with hm | hm
          · exact ⟨d, e2, names, hm, hf, rfl⟩
          · simp only [List.mem_singleton, Prod.mk.injEq] at hm
            obtain ⟨rfl, rfl⟩ := hm
            exact absurd hf (not_fileAt_of_readdir_none _ hr names)
      | some entries =>
        have he := eq_dir_of_readdir e entries hr
        subst he
        have hfuel : ((L ++ pushedDirs dir entries).map (fun q => q.2.visits)).sum ≤ fuel := by
          rw [List.map_append, List.sum_append, visits_pushedDirs]
          have hv : (Entry.dir true entries).visits = 1 + dirCountList entries := by
            simp [Entry.visits, Entry.dirCount]
          rw [hv] at hsum
          omega
        simp only [List.mem_append, mem_yieldedFiles, ih _ hfuel f]
        constructor
        · rintro (⟨name, hm, rfl⟩ | ⟨d, e2, names, hm, hf, rfl⟩)
          · exact ⟨dir, _, [name], Or.inr (List.mem_singleton.mpr rfl),
              FileAt.file (fun _ => rfl) hm, rfl⟩
          · rcases hm with hm | hm
            · exact ⟨d, e2, names, Or.inl hm, hf, rfl⟩
            · obtain ⟨name, r, es2, hmem, rfl, rfl⟩ := (mem_pushedDirs _ _ _ _).mp hm
              exact ⟨dir, _, name :: names, Or.inr (List.mem_singleton.mpr rfl),
                FileAt.step (fun _ => rfl) hmem hf, rfl⟩
        · rintro ⟨d, e2, names, hm, hf, rfl⟩
          rcases hm with hm | hm
          · exact Or.inr ⟨d, e2, names, Or.inl hm, hf, rfl⟩
          · simp only [List.mem_singleton, Prod.mk.injEq] at hm
            obtain ⟨rfl, rfl⟩ := hm
            obtain ⟨es, hes, hcase⟩ := (fileAt_readable_iff _ _).mp hf
            simp only [Entry.dir.injEq, true_and] at hes
            subst hes
            rcases hcase with ⟨name, rfl, hmem⟩ | ⟨name, child, ns, rfl, hmem, hc⟩
            · exact Or.inl ⟨name, hmem, rfl⟩
            · obtain ⟨es2, rfl, -⟩ := (fileAt_readable_iff _ _).mp hc
              exact Or.inr ⟨childRel d name, _, ns,
                Or.inr ((mem_pushedDirs _ _ _ _).mpr ⟨name, true, es2, hmem, rfl, rfl⟩), hc, rfl⟩

theorem visits_le_dirCount_succ (e : Entry) : e.visits ≤ e.dirCount + 1 := by
  cases e with
  | file => simp [Entry.visits]
  | other => simp [Entry.visits]
  | dir r es => simp [Entry.visits]

theorem mem_walkFiles (root : Entry) (f : Str) :
    f ∈ walkFiles root ↔ ∃ names, FileAt true root names ∧ f = relPath [] names := by
  unfold walkFiles
  rw [mem_walkLoop _ _ (by simpa using visits_le_dirCount_succ root)]
  constructor
  · rintro ⟨d, e, names, hm, hf, rfl⟩
    simp only [List.mem_singleton, Prod.mk.injEq] at hm
    obtain ⟨rfl, rfl⟩ := hm
    exact ⟨names, hf, rfl⟩
  · rintro ⟨names, hf, rfl⟩
    exact ⟨[], root, names, List.mem_singleton.mpr rfl, hf, rfl⟩

theorem listLoop_no_cap (cwd : Str) (incl excl : Option Str) (ys : List Str) :
    ∀ out : List FileEntry, listLoop cwd 0 incl excl ys out =
      out ++ (ys.filter (eligible incl excl)).map
        (fun rel => ({ abs := absOf cwd rel, rel := rel } : FileEntry)) := by
  induction ys with
  | nil => intro out; simp [listLoop]
  | cons rel more ih =>
    intro out
    unfold listLoop
    by_cases h1 : (rel.isEmpty || startsWith rel [46, 46]) = true
    · simp only [h1, if_true, ih]
      simp [eligible, h1]
    · simp only [h1, if_false]
      by_cases h2 : isIgnored excl rel = true
      · simp only [h2, if_true, ih]
        simp [eligible, h2]
      · simp only [h2, if_false]
        cases h3 : isIncluded incl with
        | none =>
          simp only [Bool.false_eq_true, if_false, bne_self_eq_false, Bool.false_and, ih]
          simp [eligible, h1, h2, h3]
        | some inc =>
          cases h4 : inc rel with
          | true =>
            simp only [Bool.not_true, Bool.false_eq_true, if_false, bne_self_eq_false,
              Bool.false_and, ih]
            simp [eligible, h1, h2, h3, h4]
          | false =>
            simp only [Bool.not_false, if_true, ih]
            simp [eligible, h3, h4]

theorem relPath_ne_nil_of_dir (names : List Str) :
    ∀ dir : Str, dir ≠ [] → relPath dir names ≠ [] := by
  induction names with
  | nil => intro dir h; exact h
  | cons n ns ih =>
    intro dir h
    apply ih
    unfold childRel
    simp [h]

theorem relPath_ne_nil (root : Entry) (names : List Str) (hf : FileAt true root names)
    (hn : ∀ n ∈ names, n ≠ []) : relPath [] names ≠ [] := by
  cases names with
  | nil => cases hf
  | cons n ns =>
    show relPath (childRel [] n) ns ≠ []
    apply relPath_ne_nil_of_dir
    have h2 : childRel [] n = n := by simp [childRel]
    rw [h2]
    exact hn n (List.mem_cons_self _ _)

theorem mem_listFiles_no_cap (root : Entry) (cwd : Str) (incl excl : Option Str)
    (f : FileEntry) :
    f ∈ listFiles root cwd 0 incl excl ↔
      f.abs = absOf cwd f.rel ∧ f.rel ∈ walkFiles root ∧ eligible incl excl f.rel = true := by
  unfold listFiles
  rw [listLoop_no_cap]
  simp only [List.nil_append, List.mem_map, List.mem_filter]
  constructor
  · rintro ⟨rel, ⟨hw, he⟩, rfl⟩
    exact ⟨rfl, hw, he⟩
  · rintro ⟨ha, hw, he⟩
    refine ⟨f.rel, ⟨hw, he⟩, ?_⟩
    cases f
    simp only [FileEntry.mk.injEq, and_true]
    exact ha.symm

set_option maxRecDepth 100000 in
/-- C7, as stated, fails: a regular file beneath the root in a directory that cannot
be read is not ignored and no include pattern is given, yet `listFiles` without a
cap does not return it. -/
theorem listFiles_misses_file_in_unreadable_dir :
    FileAt false lockedTree [u16 "locked", u16 "a.js"] ∧
    relPath [] [u16 "locked", u16 "a.js"] = u16 "locked/a.js" ∧
    isIgnored none (u16 "locked/a.js") = false ∧
    isIncluded none = none ∧
    (listFiles lockedTree (u16 "/repo") 0 none none).map (fun f => f.rel) = [u16 "src/x.js"] := by
  refine ⟨?_, by decide, by decide, rfl, by decide⟩
  exact FileAt.step (fun h => absurd h (by decide)) (List.mem_cons_self _ _)
    (FileAt.file (fun h => absurd h (by decide)) (List.mem_cons_self _ _))

/-- C7, amended: with no cap, a regular file that is reached from the root through
readable directories, whose names are not empty and whose root-relative path does
not begin with `..`, is returned by `listFiles` exactly when the ignore predicate
does not match its path and the include pattern, if one is given, matches it; and
every returned entry is such a reachable file. -/
theorem listFiles_returns_reachable_file_iff_eligible (root : Entry) (cwd : Str)
    (incl excl : Option Str) (names : List Str) (hfile : FileAt true root names)
    (hnames : ∀ n ∈ names, n ≠ [])
    (hdots : startsWith (relPath [] names) (u16 "..") = false) :
    ((∃ f ∈ listFiles root cwd 0 incl excl, f.rel = relPath [] names) ↔
      (isIgnored excl (relPath [] names) = false ∧
        ∀ inc, isIncluded incl = some inc → inc (relPath [] names) = true)) ∧
    (∀ f ∈ listFiles root cwd 0 incl excl,
      ∃ ns, FileAt true root ns ∧ f.rel = relPath [] ns) := by
  have hdd : u16 ".." = [46, 46] := by decide
  rw [hdd] at hdots
  have hne := relPath_ne_nil root names hfile hnames
  have hwalk : relPath [] names ∈ walkFiles root :=
    (mem_walkFiles root _).mpr ⟨names, hfile, rfl⟩
  have helig : eligible incl excl (relPath [] names) = true ↔
      (isIgnored excl (relPath [] names) = false ∧
        ∀ inc, isIncluded incl = some inc → inc (relPath [] names) = true) := by
    unfold eligible
    have h0 : (relPath [] names).isEmpty = false := by
      cases h : relPath [] names with
      | nil => exact absurd h hne
      | cons c r => rfl
    rw [h0, hdots]
    cases h3 : isIncluded incl with
    | none => simp
    | some inc => simp
  constructor
  · constructor
    · rintro ⟨f, hf, hrel⟩
      have := (mem_listFiles_no_cap root cwd incl excl f).mp hf
      rw [hrel] at this
      exact helig.mp this.2.2
    · intro h
      refine ⟨{ abs := absOf cwd (relPath [] names), rel := relPath [] names }, ?_, rfl⟩
      exact (mem_listFiles_no_cap root cwd incl excl _).mpr ⟨rfl, hwalk, helig.mpr h⟩
  · intro f hf
    have := (mem_listFiles_no_cap root cwd incl excl f).mp hf
    exact (mem_walkFiles root f.rel).mp this.2.1

set_option maxRecDepth 100000 in
theorem listFiles_returns_reachable_file_iff_eligible_witness :
    FileAt true lockedTree [u16 "src", u16 "x.js"] ∧
    (∀ n ∈ [u16 "src", u16 "x.js"], n ≠ []) ∧
    startsWith (relPath [] [u16 "src", u16 "x.js"]) (u16 "..") = false ∧
    ((∃ f ∈ listFiles lockedTree (u16 "/repo") 0 (some (u16 "src/**")) none,
        f.rel = relPath [] [u16 "src", u16 "x.js"]) ↔
      (isIgnored none (relPath [] [u16 "src", u16 "x.js"]) = false ∧
        ∀ inc, isIncluded (some (u16 "src/**")) = some inc →
          inc (relPath [] [u16 "src", u16 "x.js"]) = true)) :=
  have hfile : FileAt true lockedTree [u16 "src", u16 "x.js"] :=
    FileAt.step (fun _ => rfl) (List.mem_cons_of_mem _ (List.mem_cons_self _ _))
      (FileAt.file (fun _ => rfl) (List.mem_cons_self _ _))
  ⟨hfile, by decide, by decide,
   (listFiles_returns_reachable_file_iff_eligible lockedTree (u16 "/repo")
     (some (u16 "src/**")) none [u16 "src", u16 "x.js"] hfile (by decide) (by decide)).1⟩

/-! ## The wrapping rule -/

theorem lastOr_append (prev : Option Nat) (a b : Str) :
    lastOr prev (a ++ b) = lastOr (lastOr prev a) b := by
  induction a generalizing prev with
  | nil => rfl
  | cons c a ih => exact ih (some c)

theorem lastOr_concat (prev : Option Nat) (a : Str) (c : Nat) :
    lastOr prev (a ++ [c]) = some c := by
  rw [lastOr_append]
  rfl

theorem lastOr_none_eq_getLast? (a : Str) : lastOr none a = a.getLast? := by
  rcases List.eq_nil_or_concat a with rfl | ⟨L, b, rfl⟩
  · rfl
  · rw [List.concat_eq_append, lastOr_concat, List.getLast?_concat]

theorem replaceFrom_skip (m : Matcher) (rest : Str) :
    ∀ (x : Str) (prev : Option Nat),
      replaceFrom m x.length prev (x ++ rest) = replaceFrom m 0 (lastOr prev x) rest := by
  intro x
  induction x with
  | nil =>
    intro prev
    cases rest <;> rfl
  | cons c x ih =>
    intro prev
    simp only [List.length_cons, List.cons_append, replaceFrom]
    exact ih (some c)

theorem leftAlone_drop (m : Matcher) (rest : Str) :
    ∀ (a b : Str) (prev : Option Nat), leftAlone m prev (a ++ b) rest = true →
      leftAlone m (lastOr prev a) b rest = true := by
  intro a
  induction a with
  | nil => intro b prev h; exact h
  | cons c a ih =>
    intro b prev h
    simp only [List.cons_append, leftAlone, Bool.and_eq_true] at h
    exact ih b (some c) h.2

theorem replaceFrom_leftAlone (m : Matcher) (rest : Str) :
    ∀ (k : Nat) (t : Str) (prev : Option Nat), t.length ≤ k →
      leftAlone m prev t rest = true →
      replaceFrom m 0 prev (t ++ rest) = t ++ replaceFrom m 0 (lastOr prev t) rest := by
  intro k
  induction k with
  | zero =>
    intro t prev hk _
    have : t = [] := List.length_eq_zero.mp (Nat.le_zero.mp hk)
    subst this
    rfl
  | succ k ih =>
    intro t prev hk h
    cases t with
    | nil => rfl
    | cons c t =>
      simp only [List.length_cons, Nat.add_le_add_iff_right] at hk
      simp only [leftAlone, Bool.and_eq_true] at h
      obtain ⟨hm, htail⟩ := h
      rw [List.cons_append, replaceFrom]
      cases hmatch : m prev (c :: (t ++ rest)) with
      | none =>
        simp only []
        rw [ih t (some c) hk htail]
        rfl
      | some nr =>
        obtain ⟨n, rep⟩ := nr
        rw [List.cons_append] at hm
        rw [hmatch] at hm
        simp only [Bool.and_eq_true, decide_eq_true_eq, beq_iff_eq, List.length_cons] at hm
        obtain ⟨⟨h1, h2⟩, h3⟩ := hm
        obtain ⟨j, rfl⟩ : ∃ j, n = j + 1 := ⟨n - 1, by omega⟩
        have hj : j ≤ t.length := by omega
        simp only [Nat.add_sub_cancel]
        have hsplit : t = t.take j ++ t.drop j := (List.take_append_drop j t).symm
        have hlen : (t.take j).length = j := by simp [hj]
        have hskip : replaceFrom m j (some c) (t ++ rest) =
            replaceFrom m 0 (lastOr (some c) (t.take j)) (t.drop j ++ rest) := by
          have := replaceFrom_skip m (t.drop j ++ rest) (t.take j) (some c)
          rw [hlen, ← List.append_assoc, List.take_append_drop] at this
          exact this
        have hdrop : leftAlone m (lastOr (some c) (t.take j)) (t.drop j) rest = true := by
          apply leftAlone_drop
          rw [List.take_append_drop]
          exact htail
        rw [hskip, ih (t.drop j) _ (by simp; omega) hdrop, h3, ← lastOr_append,
          List.take_append_drop]
        simp only [List.take_succ_cons, List.cons_append, List.cons.injEq, true_and]
        rw [← List.append_assoc, List.take_append_drop]
        rfl

theorem spanNonQuote_append (L post : Str) (q : Nat) (hq : isQuote q = true)
    (hL : ∀ c ∈ L, isQuote c = false) : spanNonQuote (L ++ q :: post) = (L, q :: post) := by
  induction L with
  | nil => simp [spanNonQuote, hq]
  | cons c L ih =>
    have hc : isQuote c = false := hL c (List.mem_cons_self _ _)
    have ih2 := ih (fun d hd => hL d (List.mem_cons_of_mem _ hd))
    simp [spanNonQuote, hc, ih2]

theorem afterLit_isSome_head (c : Nat) (ps s : Str) (h : (afterLit (c :: ps) s).isSome = true) :
    s.head? = some c := by
  cases s with
  | nil => simp [afterLit] at h
  | cons d rest =>
    by_cases hd : d = c
    · simp [hd]
    · simp [afterLit, hd] at h

theorem includes_of_not_mem (c : Nat) (ps L : Str) (h : c ∉ L) : includes (c :: ps) L = false := by
  induction L with
  | nil => simp [includes]
  | cons d L ih =>
    have hd : d ≠ c := fun hd => h (by simp [hd])
    have hL : c ∉ L := fun hm => h (List.mem_cons_of_mem _ hm)
    simp [includes, afterLit, hd, ih hL]

theorem includes_pair_of_not_mem (a c : Nat) (L : Str) (h : c ∉ L) :
    includes [a, c] L = false := by
  induction L with
  | nil => simp [includes]
  | cons d L ih =>
    have hL : c ∉ L := fun hm => h (List.mem_cons_of_mem _ hm)
    simp only [includes, ih hL, Bool.or_false]
    by_cases hd : d = a
    · cases L with
      | nil => simp [afterLit, hd]
      | cons e L2 =>
        have he : e ≠ c := fun he => hL (by simp [he])
        simp [afterLit, hd, he]
    · simp [afterLit, hd]

theorem includes_singleton_of_mem (c : Nat) (L : Str) (h : c ∈ L) : includes [c] L = true := by
  induction L with
  | nil => simp at h
  | cons d L ih =>
    rcases List.mem_cons.mp h with rfl | hm
    · simp [includes, afterLit]
    · simp [includes, ih hm]

theorem wrapMatch_at_attr (prev : Option Nat) (L post : Str) (hprev : isWordAt prev = false)
    (hlen : 60 ≤ L.length) (hL : ∀ c ∈ L, isQuote c = false) :
    wrapMatch prev (litClassName ++ 34 :: (L ++ 34 :: post)) =
      some ((litClassName ++ [34] ++ L ++ [34]).length,
        if includes [36, 123] L || includes [123] L || includes [125] L then
          litClassName ++ [34] ++ L ++ [34]
        else if includes [10] L then litClassName ++ [34] ++ L ++ [34]
        else litClassName ++ [123, 99, 110, 40] ++ [34] ++ L ++ [34] ++ [41, 125]) := by
  have hb : wordBoundary prev (litClassName ++ 34 :: (L ++ 34 :: post)).head? = true := by
    have hh : (litClassName ++ 34 :: (L ++ 34 :: post)).head? = some 99 := rfl
    rw [hh]
    unfold wordBoundary
    rw [hprev]
    rfl
  have hq : isQuote 34 = true := by decide
  unfold wrapMatch
  rw [if_pos hb, afterLit_append]
  simp only [hq, if_true, spanNonQuote_append L post 34 hq hL, List.head?_cons, beq_self_eq_true,
    Bool.and_true, decide_eq_true_eq, hlen]
  split_ifs <;> rfl

theorem replaceAll_wrapMatch_attr (pre L post : Str)
    (hattr : isWordAt pre.getLast? = false) (hlen : 60 ≤ L.length)
    (hL : ∀ c ∈ L, isQuote c = false)
    (hpre : leftAlone wrapMatch none pre (litClassName ++ 34 :: (L ++ 34 :: post)) = true)
    (hpost : leftAlone wrapMatch (some 34) post [] = true) :
    replaceAll wrapMatch (pre ++ (litClassName ++ 34 :: (L ++ 34 :: post))) =
      pre ++ ((if includes [36, 123] L || includes [123] L || includes [125] L then
          litClassName ++ [34] ++ L ++ [34]
        else if includes [10] L then litClassName ++ [34] ++ L ++ [34]
        else litClassName ++ [123, 99, 110, 40] ++ [34] ++ L ++ [34] ++ [41, 125]) ++ post) := by
  unfold replaceAll
  rw [replaceFrom_leftAlone wrapMatch _ pre.length pre none (Nat.le_refl _) hpre,
    lastOr_none_eq_getLast?]
  congr 1
  have hm := wrapMatch_at_attr pre.getLast? L post hattr hlen hL
  have hcons : litClassName ++ 34 :: (L ++ 34 :: post) =
      99 :: ([108, 97, 115, 115, 78, 97, 109, 101, 61] ++ 34 :: (L ++ 34 :: post)) := rfl
  rw [hcons] at hm ⊢
  rw [replaceFrom, hm]
  simp only []
  have hlen2 : (litClassName ++ [34] ++ L ++ [34]).length - 1 =
      ([108, 97, 115, 115, 78, 97, 109, 101, 61] ++ 34 :: (L ++ [34])).length := by
    simp [litClassName]
  have hshape : [108, 97, 115, 115, 78, 97, 109, 101, 61] ++ 34 :: (L ++ 34 :: post) =
      ([108, 97, 115, 115, 78, 97, 109, 101, 61] ++ 34 :: (L ++ [34])) ++ post := by
    simp
  rw [hlen2, hshape, replaceFrom_skip]
  have hlast : lastOr (some 99) ([108, 97, 115, 115, 78, 97, 109, 101, 61] ++ 34 :: (L ++ [34])) =
      some 34 := by
    have : [108, 97, 115, 115, 78, 97, 109, 101, 61] ++ 34 :: (L ++ [34]) =
        ([108, 97, 115, 115, 78, 97, 109, 101, 61] ++ 34 :: L) ++ [34] := by simp
    rw [this, lastOr_concat]
  rw [hlast]
  have hp := replaceFrom_leftAlone wrapMatch [] post.length post (some 34) (Nat.le_refl _) hpost
  simp only [List.append_nil] at hp
  rw [hp]
  cases post <;> simp [replaceFrom]

/-! ## Trailing blanks -/

theorem rstrip_of_last (l : Str) (h : ∀ c, l.getLast? = some c → isBlank c = false) :
    rstrip l = l := by
  induction l with
  | nil => rfl
  | cons c rest ih =>
    have hall : (c :: rest).all isBlank = false := by
      have hne : (c :: rest) ≠ [] := List.cons_ne_nil _ _
      have hlast := h _ (List.getLast?_eq_getLast _ hne)
      rw [Bool.eq_false_iff]
      intro hall
      have := (List.all_eq_true.mp hall) _ (List.getLast_mem hne)
      rw [hlast] at this
      exact Bool.false_ne_true this
    rw [rstrip]
    simp only [hall, Bool.false_eq_true, if_false, List.cons.injEq, true_and]
    apply ih
    intro d hd
    apply h
    cases rest with
    | nil => simp at hd
    | cons e rest2 =>
      rw [List.getLast?_cons_cons]
      exact hd

theorem stripTrailing_of_lines (t : Str)
    (h : ∀ l ∈ splitNL t, ∀ c, l.getLast? = some c → isBlank c = false) :
    stripTrailing t = t := by
  unfold stripTrailing
  have : (splitNL t).map rstrip = splitNL t := by
    conv_rhs => rw [← List.map_id (splitNL t)]
    apply List.map_congr_left
    intro l hl
    exact rstrip_of_last l (h l hl)
  rw [this, joinNL_splitNL]

theorem splitNL_append (x y : Str) :
    splitNL (x ++ y) =
      (splitNL x).dropLast ++
        ((splitNL x).getLastD [] ++ (splitNL y).headD []) :: (splitNL y).tail := by
  induction x with
  | nil =>
    have hne := splitNL_ne_nil y
    cases h : splitNL y with
    | nil => exact absurd h hne
    | cons l ls => simp [splitNL, h]
  | cons c x ih =>
    have hne := splitNL_ne_nil x
    by_cases hc : c = 10
    · subst hc
      rw [List.cons_append, splitNL_cons_nl, splitNL_cons_nl, ih]
      cases h : splitNL x with
      | nil => exact absurd h hne
      | cons l ls => simp
    · rw [List.cons_append, splitNL_cons_of_ne c _ hc, splitNL_cons_of_ne c x hc, ih]
      cases h : splitNL x with
      | nil => exact absurd h hne
      | cons l ls =>
        cases ls with
        | nil => simp
        | cons l2 ls2 => simp

theorem splitNL_middle (x M y : Str) (hM : 10 ∉ M) :
    splitNL (x ++ (M ++ y)) =
      (splitNL x).dropLast ++
        ((splitNL x).getLastD [] ++ (M ++ (splitNL y).headD [])) :: (splitNL y).tail := by
  rw [splitNL_append x (M ++ y), splitNL_append M y, splitNL_of_no_nl M hM]
  simp

theorem lines_ok_replace (x y A W : Str) (hA : 10 ∉ A) (hW : 10 ∉ W)
    (hWlast : ∃ c, W.getLast? = some c ∧ isBlank c = false)
    (h : ∀ l ∈ splitNL (x ++ (A ++ y)), ∀ c, l.getLast? = some c → isBlank c = false) :
    ∀ l ∈ splitNL (x ++ (W ++ y)), ∀ c, l.getLast? = some c → isBlank c = false := by
  rw [splitNL_middle x A y hA] at h
  rw [splitNL_middle x W y hW]
  intro l hl c hc
  rcases List.mem_append.mp hl with hl | hl
  · exact h l (List.mem_append_left _ hl) c hc
  · rcases List.mem_cons.mp hl with rfl | hl
    · obtain ⟨w, hw, hwb⟩ := hWlast
      simp only [List.getLast?_append] at hc
      cases hy : ((splitNL y).headD []).getLast? with
      | none =>
        rw [hy, hw] at hc
        simp only [Option.or_some, Option.none_or, Option.some.injEq] at hc
        rw [← hc]
        exact hwb
      | some d =>
        rw [hy] at hc
        simp only [Option.or_some, Option.some.injEq] at hc
        apply h ((splitNL x).getLastD [] ++ (A ++ (splitNL y).headD []))
          (List.mem_append_right _ (List.mem_cons_self _ _)) c
        simp only [List.getLast?_append, hy, Option.or_some]
        rw [hc]
    · exact h l (List.mem_append_right _ (List.mem_cons_of_mem _ hl)) c hc

theorem withAttr_eq (pre L post : Str) :
    withAttr pre L post = pre ++ (litClassName ++ 34 :: (L ++ 34 :: post)) := by
  have h1 : u16 "className=\"" = litClassName ++ [34] := by decide
  have h2 : u16 "\"" = [34] := by decide
  unfold withAttr
  rw [h1, h2]
  simp

theorem withWrapped_eq (pre L post : Str) :
    withWrapped pre L post =
      pre ++ ((litClassName ++ [123, 99, 110, 40] ++ [34] ++ L ++ [34] ++ [41, 125]) ++ post) := by
  have h1 : u16 "className=\x7bcn(\"" = litClassName ++ [123, 99, 110, 40] ++ [34] := by decide
  have h2 : u16 "\")\x7d" = [34] ++ [41, 125] := by decide
  unfold withWrapped
  rw [h1, h2]
  simp

set_option maxRecDepth 1000000 in
/-- C10, as stated, fails: in a text with a call `cn(` and two attributes with long
class strings, where the zinc rules and the heading rule rewrite nothing and no line
ends with a blank, the wrapping rule rewrites the second attribute as well, so the
result is not the text with only the first attribute rewritten; and when the first
class string holds a brace the result is not the input. -/
theorem wrap_rule_rewrites_every_long_literal :
    hasCnCall (withAttr (u16 "<div ") longClass secondLongAttr) = true ∧
    isWordAt (u16 "<div ").getLast? = false ∧
    60 ≤ longClass.length ∧
    (∀ c ∈ longClass, isQuote c = false ∧ c ≠ 123 ∧ c ≠ 125 ∧ c ≠ 10) ∧
    normalizeZinc (withAttr (u16 "<div ") longClass secondLongAttr) =
      withAttr (u16 "<div ") longClass secondLongAttr ∧
    replaceAll headingMatch (withAttr (u16 "<div ") longClass secondLongAttr) =
      withAttr (u16 "<div ") longClass secondLongAttr ∧
    stripTrailing (withAttr (u16 "<div ") longClass secondLongAttr) =
      withAttr (u16 "<div ") longClass secondLongAttr ∧
    leftAlone wrapMatch (some 34) secondLongAttr [] = false ∧
    applyHeuristicPolish (withAttr (u16 "<div ") longClass secondLongAttr) (u16 "a.tsx") =
      u16 "<div className=\x7bcn(\"mx-auto flex max-w-3xl items-center gap-4 px-4 py-2 font-medium\")\x7d><p className=\x7bcn(\"mx-auto flex max-w-3xl items-center gap-4 px-4 py-2 font-semibold\")\x7d>cn(a)</p></div>" ∧
    applyHeuristicPolish (withAttr (u16 "<div ") longClass secondLongAttr) (u16 "a.tsx") ≠
      withWrapped (u16 "<div ") longClass secondLongAttr ∧
    (∀ c ∈ bracedClass, isQuote c = false) ∧ 123 ∈ bracedClass ∧
    applyHeuristicPolish (withAttr (u16 "<div ") bracedClass secondLongAttr) (u16 "a.tsx") ≠
      withAttr (u16 "<div ") bracedClass secondLongAttr := by
  refine ⟨by decide, by decide, by decide, by decide, by decide, by decide, by decide,
    by decide, by decide, by decide, by decide, by decide, by decide⟩

/-- C10, amended: in a text that holds a call `cn(` and an attribute `className="L"`
that starts at a word boundary, with `L` of at least 60 code units and without quote
characters, when the zinc rules and the heading rule rewrite nothing, no line ends
with a blank, and the wrapping rule leaves every other match of its expression alone
(each is returned unchanged by the guards, and none that starts before the attribute
runs into it): if `L` holds no brace and no line feed the result is the text with that
attribute rewritten to `className={cn("L")}` and nothing else changed; if `L` holds a
brace the result is the text itself. -/
theorem wrap_rule_rewrites_long_literal (pre L post filePath : Str)
    (hcn : hasCnCall (withAttr pre L post) = true)
    (hattr : isWordAt pre.getLast? = false)
    (hlen : 60 ≤ L.length)
    (hL : ∀ c ∈ L, isQuote c = false)
    (hzinc : normalizeZinc (withAttr pre L post) = withAttr pre L post)
    (hhead : replaceAll headingMatch (withAttr pre L post) = withAttr pre L post)
    (hpre : leftAlone wrapMatch none pre (u16 "className=\"" ++ L ++ u16 "\"" ++ post) = true)
    (hpost : leftAlone wrapMatch (some 34) post [] = true)
    (hblank : ∀ l ∈ splitNL (withAttr pre L post), ∀ c ∈ l.getLast?, isBlank c = false) :
    ((∀ c ∈ L, c ≠ 123 ∧ c ≠ 125 ∧ c ≠ 10) →
      applyHeuristicPolish (withAttr pre L post) filePath = withWrapped pre L post) ∧
    ((∃ c ∈ L, c = 123 ∨ c = 125) →
      applyHeuristicPolish (withAttr pre L post) filePath = withAttr pre L post) := by
  have hrest : u16 "className=\"" ++ L ++ u16 "\"" ++ post =
      litClassName ++ 34 :: (L ++ 34 :: post) := by
    have h := withAttr_eq [] L post
    simpa [withAttr] using h
  rw [hrest] at hpre
  have hblank2 : ∀ l ∈ splitNL (pre ++ ((litClassName ++ [34] ++ L ++ [34]) ++ post)),
      ∀ c, l.getLast? = some c → isBlank c = false := by
    intro l hl c hc
    have hs : pre ++ ((litClassName ++ [34] ++ L ++ [34]) ++ post) = withAttr pre L post := by
      rw [withAttr_eq]
      simp
    rw [hs] at hl
    exact hblank l hl c (Option.mem_def.mpr hc)
  have hrule3 := replaceAll_wrapMatch_attr pre L post hattr hlen hL hpre hpost
  have hpolish : applyHeuristicPolish (withAttr pre L post) filePath =
      stripTrailing (replaceAll wrapMatch (withAttr pre L post)) := by
    unfold applyHeuristicPolish
    simp only [hzinc, hhead, hcn, if_true]
  rw [hpolish, withAttr_eq, hrule3]
  constructor
  · intro hno
    have g1 : includes [36, 123] L = false :=
      includes_pair_of_not_mem 36 123 L (fun hm => (hno 123 hm).1 rfl)
    have g2 : includes [123] L = false :=
      includes_of_not_mem 123 [] L (fun hm => (hno 123 hm).1 rfl)
    have g3 : includes [125] L = false :=
      includes_of_not_mem 125 [] L (fun hm => (hno 125 hm).2.1 rfl)
    have g4 : includes [10] L = false :=
      includes_of_not_mem 10 [] L (fun hm => (hno 10 hm).2.2 rfl)
    have hnl : 10 ∉ L := fun hm => (hno 10 hm).2.2 rfl
    simp only [g1, g2, g3, g4, Bool.or_self, Bool.false_eq_true, if_false]
    rw [withWrapped_eq]
    apply stripTrailing_of_lines
    apply lines_ok_replace pre post (litClassName ++ [34] ++ L ++ [34]) _ _ _ _ hblank2
    · simp [litClassName, hnl]
    · simp [litClassName, hnl]
    · refine ⟨125, ?_, by decide⟩
      have : litClassName ++ [123, 99, 110, 40] ++ [34] ++ L ++ [34] ++ [41, 125] =
          (litClassName ++ [123, 99, 110, 40] ++ [34] ++ L ++ [34] ++ [41]) ++ [125] := by simp
      rw [this, List.getLast?_concat]
  · rintro ⟨c, hc, hbrace⟩
    have g : (includes [36, 123] L || includes [123] L || includes [125] L) = true := by
      rcases hbrace with rfl | rfl
      · simp [includes_singleton_of_mem _ L hc]
      · simp [includes_singleton_of_mem _ L hc]
    simp only [g, if_true]
    have hs : pre ++ (litClassName ++ [34] ++ L ++ [34] ++ post) =
        pre ++ (litClassName ++ 34 :: (L ++ 34 :: post)) := by simp
    rw [← hs]
    exact stripTrailing_of_lines _ hblank2

set_option maxRecDepth 1000000 in
theorem wrap_rule_rewrites_long_literal_witness :
    applyHeuristicPolish
        (u16 "<div className=\"mx-auto flex max-w-3xl items-center gap-4 px-4 py-2 font-medium\">cn(a)</div>\n")
        (u16 "src/app/page.tsx") =
      u16 "<div className=\x7bcn(\"mx-auto flex max-w-3xl items-center gap-4 px-4 py-2 font-medium\")\x7d>cn(a)</div>\n" ∧
    applyHeuristicPolish (withAttr (u16 "<div ") bracedClass (u16 ">cn(a)</div>\n"))
        (u16 "src/app/page.tsx") =
      withAttr (u16 "<div ") bracedClass (u16 ">cn(a)</div>\n") :=
  have h1 := (wrap_rule_rewrites_long_literal (u16 "<div ") longClass (u16 ">cn(a)</div>\n")
    (u16 "src/app/page.tsx") (by decide) (by decide) (by decide) (by decide) (by decide)
    (by decide) (by decide) (by decide) (by decide)).1 (by decide)
  have h2 := (wrap_rule_rewrites_long_literal (u16 "<div ") bracedClass (u16 ">cn(a)</div>\n")
    (u16 "src/app/page.tsx") (by decide) (by decide) (by decide) (by decide) (by decide)
    (by decide) (by decide) (by decide) (by decide)).2 (by decide)
  ⟨(show applyHeuristicPolish (withAttr (u16 "<div ") longClass (u16 ">cn(a)</div>\n"))
      (u16 "src/app/page.tsx") = withWrapped (u16 "<div ") longClass (u16 ">cn(a)</div>\n")
    from h1), h2⟩

theorem sample_class_lengths : longClass.length = 63 ∧ bracedClass.length = 67 := by
  decide

/-! ## Reading files and the provider -/

/-- C12: when `fs.readFile` rejects, as for a missing file, `readTextFile` raises
instead of returning `null`; a readable file gives `null` when it is longer than
`maxBytes` or holds a zero byte among its first 1000 bytes, and its text otherwise. -/
theorem readTextFile_raises_for_missing_file :
    (∀ (decode : List Nat → Str) (absPath : Str) (maxBytes : Nat),
      readTextFile (fun _ => none) decode absPath maxBytes = .throws) ∧
    readTextFile sampleReadFile (fun b => b) (u16 "/repo/gone.tsx") 262144 = .throws ∧
    readTextFile sampleReadFile (fun b => b) (u16 "/repo/src/a.tsx") 4 = .null ∧
    readTextFile sampleReadFile (fun b => b) (u16 "/repo/logo.js") 262144 = .null ∧
    readTextFile sampleReadFile (fun b => b) (u16 "/repo/src/a.tsx") 262144 =
      .text (u16 "const") := by
  refine ⟨fun _ _ _ => rfl, by decide, by decide, by decide, by decide⟩

set_option maxRecDepth 100000 in
/-- C13: when the promise of `fetch` rejects, or the one of `res.json()`, with
the key set and a readable candidate file, `proposeEditsWithOpenAI` raises and
`improveCodebase` aborts; a response that is not ok, an answer without text, a text
that does not parse, a payload that is not an array and entries without the fields
give no proposed edits and the run goes on with the heuristic edits. -/
theorem provider_rejection_aborts_improveCodebase :
    proposeEditsWithOpenAI (sampleEnvWith .fetchRejects) (u16 "/repo")
      (uiFiles sampleTree (u16 "/repo") {}) = none ∧
    improveCodebase (sampleEnvWith .fetchRejects) sampleTree (u16 "/repo") {} = none ∧
    proposeEditsWithOpenAI (sampleEnvWith .bodyNotJson) (u16 "/repo")
      (uiFiles sampleTree (u16 "/repo") {}) = none ∧
    improveCodebase (sampleEnvWith .bodyNotJson) sampleTree (u16 "/repo") {} = none ∧
    (∀ reply ∈ [ProviderReply.notOk, .noText, .textNotJson, .notArray,
        .array [.falsy, .obj none (some (u16 "x")), .obj (some (u16 "src/a.tsx")) none]],
      proposeEditsWithOpenAI (sampleEnvWith reply) (u16 "/repo")
        (uiFiles sampleTree (u16 "/repo") {}) = some [] ∧
      (improveCodebase (sampleEnvWith reply) sampleTree (u16 "/repo") {}).map
        (fun r => r.finalEdits) = some [sampleHeuristicB, sampleHeuristicA]) := by
  refine ⟨by decide, by decide, by decide, by decide, ?_⟩
  intro reply hreply
  simp only [List.mem_cons, List.mem_singleton, List.not_mem_nil, or_false] at hreply
  rcases hreply with rfl | rfl | rfl | rfl | rfl <;> exact ⟨by decide, by decide⟩

theorem afterWrites_other (ws : List (Str × Str)) :
    ∀ (fs : Str → Option Str) (p : Str), (∀ w ∈ ws, w.1 ≠ p) → afterWrites fs ws p = fs p := by
  induction ws with
  | nil => intro fs p _; rfl
  | cons w ws ih =>
    intro fs p h
    obtain ⟨q, c⟩ := w
    rw [afterWrites, ih _ p (fun w hw => h w (List.mem_cons_of_mem _ hw))]
    have : p ≠ q := fun hpq => h (q, c) (List.mem_cons_self _ _) hpq.symm
    simp [this]

/-- C14: the mode is `apply` when `flags.apply` is set, otherwise `dry-run` when
`flags.dryRun` is set, otherwise `patch`; in dry-run mode the one file written is the
report, in patch mode the report and then the patch file with the patch document,
both at their paths below the `.designv1` directory of the root, so that every other
path keeps its content; only in apply mode the after-content of every final edit is
written to its absolute path. -/
theorem dry_run_and_patch_write_only_state_files (env : Env) (stringify : Report → Str)
    (scan : Str) (root : Entry) (cwd : Str) (flags : RunFlags) (out : RunResult)
    (h : improveCodebaseWrites env stringify scan root cwd flags = some out) :
    out.mode = (if flags.apply then Mode.apply else if flags.dryRun then Mode.dryRun
      else Mode.patch) ∧
    out.reportPath = env.pathJoin
      (env.pathJoin (env.pathJoin cwd (u16 ".designv1")) (u16 "reports"))
      (u16 "improve-" ++ stampOf env.now ++ u16 ".json") ∧
    (out.mode = .dryRun → out.patchPath = none ∧
      ∃ content, out.writes = [(out.reportPath, content)]) ∧
    (out.mode = .patch →
      out.patchPath = some (env.pathJoin
        (env.pathJoin (env.pathJoin cwd (u16 ".designv1")) (u16 "patches"))
        (u16 "improve-" ++ stampOf env.now ++ u16 ".patch")) ∧
      ∃ content r, improveCodebase env root cwd flags.toFlags = some r ∧
        out.writes = [(out.reportPath, content), (patchPathOf env cwd, r.patch)]) ∧
    (out.mode ≠ .apply → ∀ (fs : Str → Option Str) (p : Str),
      p ≠ reportPathOf env cwd → p ≠ patchPathOf env cwd →
      afterWrites fs out.writes p = fs p) ∧
    (out.mode = .apply → out.patchPath = none ∧
      ∃ content r, improveCodebase env root cwd flags.toFlags = some r ∧
        out.writes = (out.reportPath, content) ::
          r.finalEdits.map (fun e => (e.abs, e.after))) := by
  unfold improveCodebaseWrites at h
  cases hr : improveCodebase env root cwd flags.toFlags with
  | none => simp [hr] at h
  | some r =>
    simp only [hr] at h
    cases hm : modeOf flags with
    | apply =>
      simp only [hm, Option.some.injEq] at h
      subst h
      refine ⟨?_, rfl, ?_, ?_, ?_, ?_⟩
      · exact hm.symm
      · intro h2; cases h2
      · intro h2; cases h2
      · intro h2; exact absurd rfl h2
      · intro _; exact ⟨rfl, _, r, rfl, rfl⟩
    | dryRun =>
      simp only [hm, Option.some.injEq] at h
      subst h
      refine ⟨?_, rfl, ?_, ?_, ?_, ?_⟩
      · exact hm.symm
      · intro _; exact ⟨rfl, _, rfl⟩
      · intro h2; cases h2
      · intro _ fs p hp1 _
        apply afterWrites_other
        intro w hw
        simp only [List.mem_singleton] at hw
        subst hw
        exact fun h3 => hp1 h3.symm
      · intro h2; cases h2
    | patch =>
      simp only [hm, Option.some.injEq] at h
      subst h
      refine ⟨?_, rfl, ?_, ?_, ?_, ?_⟩
      · exact hm.symm
      · intro h2; cases h2
      · intro _; exact ⟨rfl, _, r, rfl, rfl⟩
      · intro _ fs p hp1 hp2
        apply afterWrites_other
        intro w hw
        simp only [List.mem_cons, List.mem_singleton, List.not_mem_nil, or_false] at hw
        rcases hw with rfl | rfl
        · exact fun h3 => hp1 h3.symm
        · exact fun h3 => hp2 h3.symm
      · intro h2; cases h2

set_option maxRecDepth 100000 in
theorem dry_run_and_patch_write_only_state_files_witness :
    improveCodebaseWrites (sampleEnv none) sampleStringify (u16 "scan") sampleTree
      (u16 "/repo") {} = some samplePatchRun ∧
    afterWrites sampleFs samplePatchRun.writes (u16 "/repo/src/a.tsx") =
      sampleFs (u16 "/repo/src/a.tsx") :=
  have hrun : improveCodebaseWrites (sampleEnv none) sampleStringify (u16 "scan") sampleTree
      (u16 "/repo") {} = some samplePatchRun := by decide
  ⟨hrun, (dry_run_and_patch_write_only_state_files (sampleEnv none) sampleStringify
    (u16 "scan") sampleTree (u16 "/repo") {} samplePatchRun hrun).2.2.2.2.1 (by decide)
    sampleFs (u16 "/repo/src/a.tsx") (by decide) (by decide)⟩

/-! ## The heading rule on a single tag -/

theorem afterLit_append_sep (needle : Str) (d : Nat) (hd : d ∉ needle) :
    ∀ (a b : Str), (afterLit needle (a ++ d :: b)).isSome = true → (afterLit needle a).isSome = true := by
  induction needle with
  | nil => intro a b _; rfl
  | cons p ps ih =>
    intro a b h
    have hp : d ≠ p := fun h2 => hd (by simp [h2])
    have hps : d ∉ ps := fun h2 => hd (List.mem_cons_of_mem _ h2)
    cases a with
    | nil => simp [afterLit, hp] at h
    | cons c a =>
      by_cases hc : c = p
      · simp only [List.cons_append, afterLit, hc, if_true] at h ⊢
        exact ih hps a b h
      · simp [afterLit, hc] at h

theorem includes_append_sep (needle : Str) (d : Nat) (hne : needle ≠ []) (hd : d ∉ needle)
    (a b : Str) (ha : includes needle a = false) (hb : includes needle b = false) :
    includes needle (a ++ d :: b) = false := by
  induction a with
  | nil =>
    obtain ⟨p, ps, rfl⟩ := List.exists_cons_of_ne_nil hne
    have hp : d ≠ p := fun h2 => hd (by simp [h2])
    simp [includes, afterLit, hp, hb]
  | cons c a ih =>
    simp only [includes, Bool.or_eq_false_iff] at ha
    simp only [List.cons_append, includes, Bool.or_eq_false_iff]
    refine ⟨?_, ih ha.2⟩
    rw [Bool.eq_false_iff]
    intro h
    have := afterLit_append_sep needle d hd (c :: a) b h
    rw [ha.1] at this
    exact Bool.false_ne_true this

theorem includes_append_left (needle a b : Str) (h : includes needle b = true) :
    includes needle (a ++ b) = true := by
  induction a with
  | nil => exact h
  | cons c a ih => simp [includes, ih]

theorem includes_self_append (needle b : Str) : includes needle (needle ++ b) = true := by
  cases hn : needle ++ b with
  | nil =>
    have : needle = [] := (List.append_eq_nil.mp hn).1
    simp [includes, this]
  | cons c r =>
    rw [← hn]
    have := afterLit_append needle b
    rw [hn] at this ⊢
    simp [includes, this]

theorem includes_of_suffix (needle t s : Str) (hts : t <:+ s) (h : includes needle t = true) :
    includes needle s = true := by
  obtain ⟨a, rfl⟩ := hts
  exact includes_append_left needle a t h

theorem includes_of_afterLit (p needle : Str) :
    ∀ s r, afterLit (p ++ needle) s = some r → includes needle s = true := by
  induction p with
  | nil =>
    intro s r h
    cases s with
    | nil =>
      cases needle with
      | nil => rfl
      | cons x xs => simp [afterLit] at h
    | cons c rest =>
      simp only [List.nil_append] at h
      simp [includes, h]
  | cons x p ih =>
    intro s r h
    cases s with
    | nil => simp [afterLit] at h
    | cons c rest =>
      by_cases hc : c = x
      · simp only [List.cons_append, afterLit, hc, if_true] at h
        have := ih rest r h
        simp [includes, this]
      · simp [afterLit, hc] at h

theorem replaceFrom_no_match (m : Matcher) (s : Str) :
    ∀ prev, (∀ t, t <:+ s → ∀ p, m p t = none) → replaceFrom m 0 prev s = s := by
  induction s with
  | nil => intro prev _; rfl
  | cons c rest ih =>
    intro prev h
    rw [replaceFrom, h (c :: rest) (List.suffix_refl _) prev]
    simp only [List.cons.injEq, true_and]
    exact ih (some c) (fun t ht p => h t (ht.trans (List.suffix_cons c rest)) p)

theorem testFrom_no_match (p : Option Nat → Str → Bool) (s : Str) :
    ∀ prev, (∀ t, t <:+ s → ∀ q, p q t = false) → testFrom p prev s = false := by
  induction s with
  | nil =>
    intro prev h
    simp only [testFrom]
    exact h [] (List.suffix_refl _) prev
  | cons c rest ih =>
    intro prev h
    simp only [testFrom, Bool.or_eq_false_iff]
    exact ⟨h _ (List.suffix_refl _) prev,
      ih (some c) (fun t ht q => h t (ht.trans (List.suffix_cons c rest)) q)⟩

theorem zincMatch_includes (pfx : Str) (prev : Option Nat) (t : Str) (nr : Nat × Str)
    (h : zincMatch pfx prev t = some nr) : includes litZinc t = true := by
  unfold zincMatch at h
  split at h
  · cases ha : afterLit (pfx ++ litZinc) t with
    | none => simp [ha] at h
    | some r => exact includes_of_afterLit pfx litZinc t r ha
  · simp at h

theorem replaceAll_zinc_of_not_includes (pfx s : Str) (h : includes litZinc s = false) :
    replaceAll (zincMatch pfx) s = s := by
  unfold replaceAll
  apply replaceFrom_no_match
  intro t ht p
  cases hm : zincMatch pfx p t with
  | none => rfl
  | some nr =>
    have := includes_of_suffix litZinc t s ht (zincMatch_includes pfx p t nr hm)
    rw [h] at this
    exact absurd this Bool.false_ne_true

theorem normalizeZinc_of_not_includes (s : Str) (h : includes litZinc s = false) :
    normalizeZinc s = s := by
  unfold normalizeZinc
  rw [replaceAll_zinc_of_not_includes _ s h, replaceAll_zinc_of_not_includes _ s h,
    replaceAll_zinc_of_not_includes _ s h]

theorem hasCnCall_of_not_includes (s : Str) (h : includes [99, 110] s = false) :
    hasCnCall s = false := by
  unfold hasCnCall
  apply testFrom_no_match
  intro t ht q
  rw [Bool.eq_false_iff]
  intro hc
  unfold cnCallAt at hc
  simp only [Bool.and_eq_true] at hc
  cases ha : afterLit [99, 110] t with
  | none => simp [ha] at hc
  | some r =>
    have h1 := includes_of_afterLit [] [99, 110] t r (by simpa using ha)
    have := includes_of_suffix _ t s ht h1
    rw [h] at this
    exact absurd this Bool.false_ne_true

theorem headingTag_eq (n : Nat) (C : Str) :
    headingTag n C =
      60 :: 104 :: (48 + n) :: 32 :: (litClassName ++ 34 :: (C ++ [34, 62])) := by
  have h1 : u16 "<h" = [60, 104] := by decide
  have h2 : u16 " className=\"" = 32 :: (litClassName ++ [34]) := by decide
  have h3 : u16 "\">" = [34, 62] := by decide
  unfold headingTag
  rw [h1, h2, h3]
  simp

theorem includes_headingTag_zinc (n : Nat) (C : Str)
    (h : includes litZinc C = false) (post : Str) (hpost : includes litZinc post = false)
    (d : Nat) (hd : d ∉ litZinc) :
    includes litZinc (60 :: 104 :: (48 + n) :: 32 :: (litClassName ++ 34 :: (C ++ d :: post))) =
      false := by
  have hN : 48 + n ≠ 45 := by omega
  have hmid := includes_append_sep litZinc d (by decide) hd C post h hpost
  simp only [litClassName, List.cons_append, List.nil_append, includes, litZinc, afterLit] at hmid ⊢
  simp [hN, hmid]

theorem includes_headingTag_cn (n : Nat) (C : Str) (hn : n ≤ 6)
    (h : includes [99, 110] C = false) (post : Str) (hpost : includes [99, 110] post = false)
    (d : Nat) (hd : d ∉ [99, 110]) :
    includes [99, 110] (60 :: 104 :: (48 + n) :: 32 :: (litClassName ++ 34 :: (C ++ d :: post))) =
      false := by
  have hN : 48 + n ≠ 99 := by omega
  have hmid := includes_append_sep [99, 110] d (by decide) hd C post h hpost
  simp only [litClassName, List.cons_append, List.nil_append, includes, afterLit] at hmid ⊢
  simp [hN, hmid]

theorem lazyBody_append (q : Nat) (hq : isQuote q = true) (C r : Str)
    (hC : ∀ c ∈ C, isQuote c = false) : lazyBody q (C ++ q :: r) = some (C, r) := by
  induction C with
  | nil => simp [lazyBody, hq]
  | cons c C ih =>
    have hc : isQuote c = false := hC c (List.mem_cons_self _ _)
    have := ih (fun x hx => hC x (List.mem_cons_of_mem _ hx))
    simp [lazyBody, hc, this]

theorem lazyAttrs_tag (C r : Str) (hC : ∀ c ∈ C, isQuote c = false) :
    lazyAttrs (32 :: (litClassName ++ 34 :: (C ++ 34 :: r))) = some ([32], 34, C, r) := by
  have hbody := lazyBody_append 34 (by decide) C r hC
  have hattr : classAttr (litClassName ++ 34 :: (C ++ 34 :: r)) = some (34, C, r) := by
    unfold classAttr
    rw [afterLit_append]
    have hq : isQuote 34 = true := by decide
    simp only [hq, if_true, hbody, Option.map_some']
  have h32 : classAttr (32 :: (litClassName ++ 34 :: (C ++ 34 :: r))) = none := by
    simp [classAttr, litClassName, afterLit]
  have hshape : litClassName ++ 34 :: (C ++ 34 :: r) =
      99 :: ([108, 97, 115, 115, 78, 97, 109, 101, 61] ++ 34 :: (C ++ 34 :: r)) := rfl
  rw [lazyAttrs, h32]
  simp only [show (32 : Nat) ≠ 62 by decide, if_false]
  rw [hshape, lazyAttrs, ← hshape, hattr]
  rfl

theorem headingMatch_tag (n : Nat) (C : Str) (hn : 1 ≤ n ∧ n ≤ 6)
    (hC : ∀ c ∈ C, isQuote c = false) (prev : Option Nat) :
    headingMatch prev (60 :: 104 :: (48 + n) :: 32 :: (litClassName ++ 34 :: (C ++ [34, 62]))) =
      some ((104 :: (48 + n) :: 32 :: (litClassName ++ 34 :: (C ++ [34]))).length + 1,
        60 :: 104 :: (48 + n) :: 32 :: (litClassName ++ 34 ::
          ((if includes litTextBalance C then C else if !hasSizeToken C then C
            else C ++ 32 :: litTextBalance) ++ [34]))) := by
  have hlev : (decide (49 ≤ 48 + n) && decide (48 + n ≤ 54)) = true := by
    simp only [Bool.and_eq_true, decide_eq_true_eq]
    omega
  have hattrs := lazyAttrs_tag C [62] hC
  have hshape : C ++ [34, 62] = C ++ 34 :: [62] := rfl
  rw [hshape]
  unfold headingMatch
  simp only [hlev, if_true, hattrs]
  split_ifs <;> simp [litClassName]

theorem replaceAll_headingMatch_tag (n : Nat) (C : Str) (hn : 1 ≤ n ∧ n ≤ 6)
    (hC : ∀ c ∈ C, isQuote c = false) :
    replaceAll headingMatch
        (60 :: 104 :: (48 + n) :: 32 :: (litClassName ++ 34 :: (C ++ [34, 62]))) =
      60 :: 104 :: (48 + n) :: 32 :: (litClassName ++ 34 ::
        ((if includes litTextBalance C then C else if !hasSizeToken C then C
          else C ++ 32 :: litTextBalance) ++ [34, 62])) := by
  unfold replaceAll
  rw [replaceFrom, headingMatch_tag n C hn hC none]
  simp only [Nat.add_sub_cancel]
  have hshape : 104 :: (48 + n) :: 32 :: (litClassName ++ 34 :: (C ++ [34, 62])) =
      (104 :: (48 + n) :: 32 :: (litClassName ++ 34 :: (C ++ [34]))) ++ [62] := by simp
  rw [hshape, replaceFrom_skip]
  have hlast : replaceFrom headingMatch 0
      (lastOr (some 60) (104 :: (48 + n) :: 32 :: (litClassName ++ 34 :: (C ++ [34])))) [62] =
      [62] := by
    simp [replaceFrom, headingMatch]
  rw [hlast]
  simp

theorem stripTrailing_headingTag (n : Nat) (C : Str) (hline : 10 ∉ C) :
    stripTrailing (60 :: 104 :: (48 + n) :: 32 :: (litClassName ++ 34 :: (C ++ [34, 62]))) =
      60 :: 104 :: (48 + n) :: 32 :: (litClassName ++ 34 :: (C ++ [34, 62])) := by
  have hnl : 10 ∉ 60 :: 104 :: (48 + n) :: 32 :: (litClassName ++ 34 :: (C ++ [34, 62])) := by
    have hN : 10 ≠ 48 + n := by omega
    simp [litClassName, hline, hN]
  apply stripTrailing_of_lines
  rw [splitNL_of_no_nl _ hnl]
  intro l hl c hc
  simp only [List.mem_singleton] at hl
  subst hl
  have hshape : 60 :: 104 :: (48 + n) :: 32 :: (litClassName ++ 34 :: (C ++ [34, 62])) =
      (60 :: 104 :: (48 + n) :: 32 :: (litClassName ++ 34 :: (C ++ [34]))) ++ [62] := by simp
  rw [hshape, List.getLast?_concat] at hc
  simp only [Option.some.injEq] at hc
  subst hc
  decide

theorem applyHeuristicPolish_headingTag (n : Nat) (C filePath : Str) (hn : 1 ≤ n ∧ n ≤ 6)
    (hq : ∀ c ∈ C, isQuote c = false) (hline : 10 ∉ C)
    (hzinc : includes litZinc C = false) (hcn : includes [99, 110] C = false) :
    applyHeuristicPolish (headingTag n C) filePath =
      headingTag n (if includes litTextBalance C then C else if !hasSizeToken C then C
        else C ++ 32 :: litTextBalance) := by
  have hC2cn : includes [99, 110] (if includes litTextBalance C then C
      else if !hasSizeToken C then C else C ++ 32 :: litTextBalance) = false := by
    split_ifs
    · exact hcn
    · exact hcn
    · exact includes_append_sep [99, 110] 32 (by decide) (by decide) C litTextBalance hcn
        (by decide)
  have hC2line : 10 ∉ (if includes litTextBalance C then C
      else if !hasSizeToken C then C else C ++ 32 :: litTextBalance) := by
    split_ifs
    · exact hline
    · exact hline
    · simp [hline, litTextBalance]
  rw [headingTag_eq, headingTag_eq]
  have hz : includes litZinc
      (60 :: 104 :: (48 + n) :: 32 :: (litClassName ++ 34 :: (C ++ [34, 62]))) = false :=
    includes_headingTag_zinc n C hzinc [62] (by decide) 34 (by decide)
  unfold applyHeuristicPolish
  simp only [normalizeZinc_of_not_includes _ hz, replaceAll_headingMatch_tag n C hn hq]
  have hc : hasCnCall (60 :: 104 :: (48 + n) :: 32 :: (litClassName ++ 34 ::
      ((if includes litTextBalance C then C else if !hasSizeToken C then C
        else C ++ 32 :: litTextBalance) ++ [34, 62]))) = false :=
    hasCnCall_of_not_includes _
      (includes_headingTag_cn n _ hn.2 hC2cn [62] (by decide) 34 (by decide))
  simp only [hc, Bool.false_eq_true, if_false]
  exact stripTrailing_headingTag n _ hC2line

theorem occurrences_append_sep (needle : Str) (d : Nat) (hne : needle ≠ []) (hd : d ∉ needle)
    (a b : Str) (ha : includes needle a = false) :
    occurrences needle (a ++ d :: b) = occurrences needle b := by
  induction a with
  | nil =>
    obtain ⟨p, ps, rfl⟩ := List.exists_cons_of_ne_nil hne
    have hp : d ≠ p := fun h2 => hd (by simp [h2])
    simp [occurrences, afterLit, hp]
  | cons c a ih =>
    simp only [includes, Bool.or_eq_false_iff] at ha
    have h0 : (afterLit needle (c :: a ++ d :: b)).isSome = false := by
      rw [Bool.eq_false_iff]
      intro h
      have := afterLit_append_sep needle d hd (c :: a) b h
      rw [ha.1] at this
      exact Bool.false_ne_true this
    simp only [List.cons_append] at h0 ⊢
    rw [occurrences, h0, ih ha.2]
    simp

theorem occurrences_headingTag_balanced (n : Nat) (C : Str) (hn : 1 ≤ n ∧ n ≤ 6)
    (hb : includes litTextBalance C = false) :
    occurrences litTextBalance (headingTag n (C ++ 32 :: litTextBalance)) = 1 := by
  have hN : 48 + n ≠ 116 := by omega
  have hmid := occurrences_append_sep litTextBalance 32 (by decide) (by decide) C
    (litTextBalance ++ [34, 62]) hb
  have hend : occurrences litTextBalance (litTextBalance ++ [34, 62]) = 1 := by decide
  rw [hend] at hmid
  rw [headingTag_eq]
  have hshape : (C ++ 32 :: litTextBalance) ++ [34, 62] =
      C ++ 32 :: (litTextBalance ++ [34, 62]) := by simp
  rw [hshape]
  simp only [litClassName, List.cons_append, List.nil_append, occurrences, afterLit,
    litTextBalance] at hmid ⊢
  simp [hN, hmid]

set_option maxRecDepth 100000 in
/-- C11, as stated, fails: a class string with a size token and a zinc colour token
is also normalized, so the heading does not become `<hN className="C text-balance">`;
a heading without a size token whose class string holds a zinc colour token is
changed; and a long class string that holds a call `cn(` is wrapped as well. -/
theorem heading_with_zinc_token_is_also_normalized :
    (∀ c ∈ u16 "text-2xl text-zinc-900", isQuote c = false) ∧
    10 ∉ u16 "text-2xl text-zinc-900" ∧
    hasSizeToken (u16 "text-2xl text-zinc-900") = true ∧
    includes (u16 "text-balance") (u16 "text-2xl text-zinc-900") = false ∧
    applyHeuristicPolish (headingTag 1 (u16 "text-2xl text-zinc-900")) (u16 "a.tsx") =
      u16 "<h1 className=\"text-2xl text-neutral-900 text-balance\">" ∧
    applyHeuristicPolish (headingTag 1 (u16 "text-2xl text-zinc-900")) (u16 "a.tsx") ≠
      headingTag 1 (u16 "text-2xl text-zinc-900" ++ u16 " text-balance") ∧
    hasSizeToken (u16 "font-bold text-zinc-900") = false ∧
    applyHeuristicPolish (headingTag 2 (u16 "font-bold text-zinc-900")) (u16 "a.tsx") ≠
      headingTag 2 (u16 "font-bold text-zinc-900") ∧
    applyHeuristicPolish
        (headingTag 3 (u16 "text-2xl font-semibold tracking-tight text-neutral-900 cn(x)"))
        (u16 "a.tsx") =
      u16 "<h3 className=\x7bcn(\"text-2xl font-semibold tracking-tight text-neutral-900 cn(x) text-balance\")\x7d>" := by
  refine ⟨by decide, by decide, by decide, by decide, by decide, by decide, by decide,
    by decide, by decide⟩

/-- C11, amended: for a heading level from 1 to 6 and a class string `C` without
quote characters and line feeds that holds neither `-zinc-` nor `cn`: if the
expression `\btext-(2xl|3xl|4xl|5xl)\b` matches in `C` and `C` does not hold
`text-balance`, the text `<hN className="C">` becomes `<hN className="C text-balance">`,
a second application leaves that result unchanged, and `text-balance` occurs in it
exactly once; if the expression does not match or `C` holds `text-balance` already,
the text is unchanged. -/
theorem heading_gains_text_balance_once (n : Nat) (C filePath : Str) (hn : 1 ≤ n ∧ n ≤ 6)
    (hq : ∀ c ∈ C, isQuote c = false) (hline : 10 ∉ C)
    (hzinc : includes (u16 "-zinc-") C = false) (hcn : includes (u16 "cn") C = false) :
    (hasSizeToken C = true → includes (u16 "text-balance") C = false →
      applyHeuristicPolish (headingTag n C) filePath =
        headingTag n (C ++ u16 " text-balance") ∧
      applyHeuristicPolish (headingTag n (C ++ u16 " text-balance")) filePath =
        headingTag n (C ++ u16 " text-balance") ∧
      occurrences (u16 "text-balance") (headingTag n (C ++ u16 " text-balance")) = 1) ∧
    ((hasSizeToken C = false ∨ includes (u16 "text-balance") C = true) →
      applyHeuristicPolish (headingTag n C) filePath = headingTag n C) := by
  have e1 : u16 "-zinc-" = litZinc := by decide
  have e2 : u16 "cn" = [99, 110] := by decide
  have e3 : u16 "text-balance" = litTextBalance := by decide
  have e4 : u16 " text-balance" = 32 :: litTextBalance := by decide
  rw [e1] at hzinc
  rw [e2] at hcn
  rw [e3, e4]
  have hcore := applyHeuristicPolish_headingTag n C filePath hn hq hline hzinc hcn
  constructor
  · intro hsize hnb
    refine ⟨?_, ?_, occurrences_headingTag_balanced n C hn hnb⟩
    · rw [hcore]
      simp [hsize, hnb]
    · have hq2 : ∀ c ∈ C ++ 32 :: litTextBalance, isQuote c = false := by
        intro c hc
        rcases List.mem_append.mp hc with h | h
        · exact hq c h
        · have htb : ∀ x ∈ 32 :: litTextBalance, isQuote x = false := by decide
          exact htb c h
      have hline2 : 10 ∉ C ++ 32 :: litTextBalance := by simp [hline, litTextBalance]
      have hz2 := includes_append_sep litZinc 32 (by decide) (by decide) C litTextBalance
        hzinc (by decide)
      have hc2 := includes_append_sep [99, 110] 32 (by decide) (by decide) C litTextBalance
        hcn (by decide)
      have hb2 : includes litTextBalance (C ++ 32 :: litTextBalance) = true := by
        have : C ++ 32 :: litTextBalance = (C ++ [32]) ++ litTextBalance := by simp
        rw [this]
        exact includes_append_left _ _ _ (by decide)
      rw [applyHeuristicPolish_headingTag n _ filePath hn hq2 hline2 hz2 hc2]
      simp [hb2]
  · intro h
    rw [hcore]
    rcases h with h | h
    · simp [h]
    · simp [h]

set_option maxRecDepth 100000 in
theorem heading_gains_text_balance_once_witness :
    hasSizeToken (u16 "text-3xl font-bold") = true ∧
    applyHeuristicPolish (u16 "<h1 className=\"text-3xl font-bold\">") (u16 "a.tsx") =
      u16 "<h1 className=\"text-3xl font-bold text-balance\">" ∧
    applyHeuristicPolish (u16 "<h1 className=\"text-3xl font-bold text-balance\">")
        (u16 "a.tsx") =
      u16 "<h1 className=\"text-3xl font-bold text-balance\">" :=
  have h := (heading_gains_text_balance_once 1 (u16 "text-3xl font-bold") (u16 "a.tsx")
    (by decide) (by decide) (by decide) (by decide) (by decide)).1 (by decide) (by decide)
  ⟨by decide, h.1, h.2.1⟩

end DesignV1
